import Mathlib

/-!
# Verification of the docx substitution engine

Shallow embedding of the text-substitution engine of the repository
(`src/docx_processor.py`, `src/resume_processor.py`).  Paragraph text is
modelled as `List Char`; a `Run` couples a text with one
`FormattingAttributes` value (`Fmt`); a `Doc` holds the top-level
paragraphs and the tables (rows of cells of paragraphs) exactly as
`python-docx` exposes them.  Python functions returning normally are
modelled as total functions; functions that can raise are modelled with
`Option` (`none` = an exception escapes, which `find_and_replace_text`
re-raises as `EditOperationError`).
-/

/-- Paragraph / run text, modelled character by character. -/
abbrev Text := List Char

/-- `FormattingAttributes`: the run-formatting dictionary built by
`_extract_run_formatting` (docx_processor.py lines 252-261): bold, italic,
underline, font name, font size and font color, each possibly unset
(`None`).  Font size is modelled in EMU as a `Nat`, the RGB color as a
`Nat` code. -/
structure Fmt where
  bold : Option Bool
  italic : Option Bool
  underline : Option Bool
  font_name : Option Text
  font_size : Option Nat
  font_color : Option Nat
deriving DecidableEq

/-- Formatting of a freshly created run (`paragraph.add_run`): every
attribute unset. -/
def defaultFmt : Fmt := ⟨none, none, none, none, none, none⟩

/-- A run: an atomic piece of text with one formatting value. -/
structure Run where
  text : Text
  fmt : Fmt
deriving DecidableEq

/-- A paragraph: its ordered runs plus the paragraph-level layout
attributes touched by `_apply_bullet_formatting` (style name, left
indent, first-line indent, space-after, line spacing).  Indents are in
EMU (`Int`, the first-line indent is negative for hanging indents),
space-after in EMU, line spacing in hundredths. -/
structure Para where
  runs : List Run
  styleName : Option Text
  leftIndent : Option Int
  firstLineIndent : Option Int
  spaceAfter : Option Nat
  lineSpacing : Option Nat
deriving DecidableEq

/-- `paragraph.text`: concatenation of the run texts. -/
def Para.text (p : Para) : Text := (p.runs.map Run.text).flatten

/-- A plain paragraph holding one default-formatted run. -/
def paraOf (s : String) : Para := ⟨[⟨s.data, defaultFmt⟩], none, none, none, none, none⟩

/-- A table: rows, each row a list of cells, each cell a list of
paragraphs (the shape walked by `find_and_replace_text` lines 103-109). -/
abbrev Table := List (List (List Para))

/-- The loaded document: top-level paragraphs, tables, and whether the
document defines the named style `List Paragraph` (consulted by
`_apply_bullet_formatting`). -/
structure Doc where
  paragraphs : List Para
  tables : List Table
  hasListParagraphStyle : Bool
deriving DecidableEq

/-- All paragraphs of one table, in visiting order (rows, then cells,
then the cell's paragraphs). -/
def tableParas (t : Table) : List Para := (t.map (fun row => row.flatten)).flatten

/-- Every paragraph `find_and_replace_text` visits, in visiting order:
top-level paragraphs first, then the table-cell paragraphs. -/
def visitedParas (d : Doc) : List Para := d.paragraphs ++ (d.tables.map tableParas).flatten

/-- Python `str.lower` restricted to ASCII letters (the documents and
tokens the engine handles are ASCII; on them `str.lower` and this
function agree). -/
def pyLower (c : Char) : Char :=
  if 65 ≤ c.toNat ∧ c.toNat ≤ 90 then Char.ofNat (c.toNat + 32) else c

/-- The character normalisation used by a search: the identity for
case-sensitive matching, `pyLower` for `re.IGNORECASE` /
lowercased-operand matching. -/
def caseFold (case_sensitive : Bool) : Char → Char :=
  if case_sensitive then id else pyLower

/-- Does the literal pattern `s` match at the head of `t`, comparing
characters through the normalisation `φ`? -/
def matchAt (φ : Char → Char) (s t : Text) : Bool :=
  (s.map φ).isPrefixOf (t.map φ)

/-- `re.finditer` with an escaped (literal) nonempty pattern: all
leftmost non-overlapping match spans `(start, end)`, scanning from
absolute position `i`.  (The empty pattern is handled in
`findMatches`.) -/
def findMatchesAux (φ : Char → Char) (s : Text) (t : Text) (i : Nat) : List (Nat × Nat) :=
  match t with
  | [] => []
  | c :: rest =>
    if matchAt φ s (c :: rest) then
      (i, i + s.length) :: findMatchesAux φ s (rest.drop (s.length - 1)) (i + s.length)
    else
      findMatchesAux φ s rest (i + 1)
termination_by t.length
decreasing_by
  · simp only [List.length_drop, List.length_cons]; omega
  · simp only [List.length_cons]; omega

/-- `re.finditer(re.escape(s), t)`: for an empty pattern Python yields an
empty match at every position `0..len(t)`; otherwise the leftmost
non-overlapping spans. -/
def findMatches (φ : Char → Char) (s t : Text) : List (Nat × Nat) :=
  if s.isEmpty then (List.range (t.length + 1)).map (fun i => (i, i))
  else findMatchesAux φ s t 0

/-- Python `t.count(s)` for nonempty `s`: greedy non-overlapping
occurrence count (case-sensitive). -/
def pyCountAux (s : Text) (t : Text) : Nat :=
  match t with
  | [] => 0
  | c :: rest =>
    if matchAt id s (c :: rest) then 1 + pyCountAux s (rest.drop (s.length - 1))
    else pyCountAux s rest
termination_by t.length
decreasing_by
  · simp only [List.length_drop, List.length_cons]; omega
  · simp only [List.length_cons]; omega

/-- Python `t.count(s)`: `len(t)+1` for the empty needle, greedy
non-overlapping count otherwise. -/
def pyCount (s t : Text) : Nat :=
  if s.isEmpty then t.length + 1 else pyCountAux s t

/-- Greedy leftmost non-overlapping literal substitution of `s` by `r`
under normalisation `φ` (nonempty `s`).  With `φ = id` this is Python
`t.replace(s, r)` for nonempty `s`. -/
def replaceAllBy (φ : Char → Char) (s r : Text) (t : Text) : Text :=
  match t with
  | [] => []
  | c :: rest =>
    if matchAt φ s (c :: rest) then r ++ replaceAllBy φ s r (rest.drop (s.length - 1))
    else c :: replaceAllBy φ s r rest
termination_by t.length
decreasing_by
  · simp only [List.length_drop, List.length_cons]; omega
  · simp only [List.length_cons]; omega

/-- Python `t.replace("", r)`: inserts `r` before every character and at
the end. -/
def insertEverywhere (r : Text) : Text → Text
  | [] => r
  | c :: rest => r ++ c :: insertEverywhere r rest

/-- Python `t.replace(s, r)` in full. -/
def pyReplace (s r t : Text) : Text :=
  if s.isEmpty then insertEverywhere r t else replaceAllBy id s r t

/-- Python substring containment `s in t` (the empty string is contained
in everything). -/
def pyContains (s t : Text) : Bool := decide (s <:+: t)

/-! ## The `re.sub` replacement-template language

The case-insensitive non-preserving branch
(`_replace_text_in_paragraph` line 170) passes `replace_text` to
`re.sub` unescaped, so backslash sequences in it are interpreted as
template escapes.  `expandTemplate matched tmpl` models CPython's
template expansion for a pattern that has no capture groups (the pattern
is `re.escape(search_text)`): group 0 is the matched text, any group
reference `≥ 1` is an `invalid group reference` error (`none`), unknown
ASCII-letter escapes are `bad escape` errors, `\0` starts an octal
escape, and a backslash before a non-alphanumeric character is kept
as-is. -/

/-- Is `c` an octal digit? -/
def isOctalDigit (c : Char) : Bool := '0' ≤ c ∧ c ≤ '7'

/-- Value of a string of octal digits. -/
def octVal (ds : Text) : Nat := ds.foldl (fun a c => a * 8 + (c.toNat - 48)) 0

/-- CPython `re` template expansion (see above); `none` models a raised
`re.error`. -/
def expandTemplate (matched : Text) (tmpl : Text) : Option Text :=
  match tmpl with
  | [] => some []
  | '\\' :: 'g' :: '<' :: rest2 =>
    -- group reference: name up to the closing '>' (takeWhile stops exactly at
    -- the first '>', so a closing bracket exists iff the name is shorter than
    -- rest2); only group 0 (the whole match) exists for an escaped pattern
    let name := rest2.takeWhile (fun x => x ≠ '>')
    if name.length < rest2.length ∧ name = ['0'] then
      (expandTemplate matched (rest2.drop (name.length + 1))).map (fun e => matched ++ e)
    else none
  | '\\' :: 'g' :: _ => none
  | ['\\'] => none
  | '\\' :: c :: rest1 =>
    if c = '0' then
      let os := (rest1.takeWhile isOctalDigit).take 2
      (expandTemplate matched (rest1.drop os.length)).map (fun e => Char.ofNat (octVal os) :: e)
    else if c.isDigit then none
    else if c = 'n' then (expandTemplate matched rest1).map (fun e => '\n' :: e)
    else if c = 't' then (expandTemplate matched rest1).map (fun e => '\t' :: e)
    else if c = 'r' then (expandTemplate matched rest1).map (fun e => '\r' :: e)
    else if c = 'a' then (expandTemplate matched rest1).map (fun e => Char.ofNat 7 :: e)
    else if c = 'b' then (expandTemplate matched rest1).map (fun e => Char.ofNat 8 :: e)
    else if c = 'f' then (expandTemplate matched rest1).map (fun e => Char.ofNat 12 :: e)
    else if c = 'v' then (expandTemplate matched rest1).map (fun e => Char.ofNat 11 :: e)
    else if c = '\\' then (expandTemplate matched rest1).map (fun e => '\\' :: e)
    else if c.isAlpha then none
    else (expandTemplate matched rest1).map (fun e => '\\' :: c :: e)
  | c :: rest => (expandTemplate matched rest).map (fun e => c :: e)
termination_by tmpl.length
decreasing_by all_goals simp only [List.length_drop, List.length_cons]; omega

/-- `re.sub` scanning for a nonempty literal pattern under `φ`: each
match is replaced by the template expanded against the matched
(original-case) text. -/
def reSubAux (φ : Char → Char) (s tmpl : Text) (t : Text) : Option Text :=
  match t with
  | [] => some []
  | c :: rest =>
    if matchAt φ s (c :: rest) then
      match expandTemplate ((c :: rest).take s.length) tmpl with
      | none => none
      | some rep =>
        match reSubAux φ s tmpl (rest.drop (s.length - 1)) with
        | none => none
        | some tail => some (rep ++ tail)
    else
      match reSubAux φ s tmpl rest with
      | none => none
      | some tail => some (c :: tail)
termination_by t.length
decreasing_by
  · simp only [List.length_drop, List.length_cons]; omega
  · simp only [List.length_cons]; omega

/-- `re.sub` with an empty pattern: the expansion of the template
against the empty match is inserted at every position. -/
def reSubEmpty (tmpl : Text) : Text → Option Text
  | [] => expandTemplate [] tmpl
  | c :: rest =>
    match expandTemplate [] tmpl, reSubEmpty tmpl rest with
    | some e, some tail => some (e ++ c :: tail)
    | _, _ => none

/-- `re.sub(re.escape(s), tmpl, t, flags)`, `φ` being the case
normalisation implied by the flags. -/
def reSub (φ : Char → Char) (s tmpl t : Text) : Option Text :=
  if s.isEmpty then reSubEmpty tmpl t else reSubAux φ s tmpl t

/-! ## Character map, splice, rebuild (formatting-preserving path) -/

/-- One entry of the `char_to_run_map`: a character with the formatting
of the run that owns it (the stored `position`/`run` fields of the
Python dict are not read again after construction). -/
abbrev CharFmt := Char × Fmt

/-- `_extract_run_formatting` (lines 252-261): reads the run's
attributes, which in this model are the run's `fmt`. -/
def extract_run_formatting (r : Run) : Fmt := r.fmt

/-- `_apply_run_formatting` (lines 263-276): copy `f`'s attributes onto
a run currently formatted `base`.  Booleans are copied when not `None`;
font name / size are copied only when *truthy* (a `Some ""` name or
`Some 0` size is dropped); the color is an always-truthy `RGBColor`, so
it is copied whenever set. -/
def apply_run_formatting (f : Fmt) (base : Fmt) : Fmt :=
  { bold := if f.bold.isSome then f.bold else base.bold
    italic := if f.italic.isSome then f.italic else base.italic
    underline := if f.underline.isSome then f.underline else base.underline
    font_name :=
      match f.font_name with
      | some n => if n.isEmpty then base.font_name else some n
      | none => base.font_name
    font_size :=
      match f.font_size with
      | some k => if k = 0 then base.font_size else some k
      | none => base.font_size
    font_color := if f.font_color.isSome then f.font_color else base.font_color }

/-- A formatting value that survives being re-applied to a fresh
default run. -/
def Fmt.normal (f : Fmt) : Prop := apply_run_formatting f defaultFmt = f

/-- The `char_to_run_map` built in
`_replace_with_formatting_preservation` lines 196-208: every character
of every run paired with its run's formatting (zero-length runs
contribute nothing). -/
def buildCharMap (runs : List Run) : List CharFmt :=
  (runs.map (fun r => r.text.map (fun c => (c, r.fmt)))).flatten

/-- One reverse-order splice (lines 227-243): read the formatting of the
character at `se.1` (an out-of-range index is Python's `IndexError`,
hence `none`), then replace the slice `[se.1, se.2)` by `r`'s characters
all tagged with that formatting. -/
def spliceOne (r : Text) (m : List CharFmt) (se : Nat × Nat) : Option (List CharFmt) :=
  match m[se.1]? with
  | none => none
  | some cf => some (m.take se.1 ++ r.map (fun c => (c, cf.2)) ++ m.drop se.2)

/-- `for match in reversed(matches): ...` (lines 226-244): the matches
list is processed last-match-first, so the head of the list is spliced
last. -/
def processMatches (r : Text) (ms : List (Nat × Nat)) (m : List CharFmt) : Option (List CharFmt) :=
  match ms with
  | [] => some m
  | se :: rest =>
    match processMatches r rest m with
    | none => none
    | some m' => spliceOne r m' se

/-- The left-to-right functional description of the same splice: each
match of `s` (under `φ`) is replaced by `r`, every replacement character
tagged with the formatting of the *first* character of the match. -/
def replaceMapBy (φ : Char → Char) (s r : Text) (m : List CharFmt) : List CharFmt :=
  match m with
  | [] => []
  | cf :: rest =>
    if matchAt φ s ((cf :: rest).map Prod.fst) then
      r.map (fun c => (c, cf.2)) ++ replaceMapBy φ s r (rest.drop (s.length - 1))
    else
      cf :: replaceMapBy φ s r rest
termination_by m.length
decreasing_by
  · simp only [List.length_drop, List.length_cons]; omega
  · simp only [List.length_cons]; omega

/-- Does every match of `s` (case-sensitively) in the map sit on
characters that all carry the formatting of the match's first
character? -/
def matchesUniform (s : Text) (m : List CharFmt) : Bool :=
  match m with
  | [] => true
  | cf :: rest =>
    if matchAt id s ((cf :: rest).map Prod.fst) then
      ((cf :: rest).take s.length).all (fun x => x.2 = cf.2)
        && matchesUniform s (rest.drop (s.length - 1))
    else matchesUniform s rest
termination_by m.length
decreasing_by
  · simp only [List.length_drop, List.length_cons]; omega
  · simp only [List.length_cons]; omega

/-- The run-grouping loop of `_rebuild_paragraph_with_formatting`
(lines 313-333): walk the map left to right accumulating consecutive
characters of identical formatting, starting a new run on any change;
the trailing accumulated run is emitted only when nonempty. -/
def rebuildAux (cur : Text) (curFmt : Fmt) : List CharFmt → List (Text × Fmt)
  | [] => if cur.isEmpty then [] else [(cur, curFmt)]
  | cf :: rest =>
    if cf.2 = curFmt then rebuildAux (cur ++ [cf.1]) curFmt rest
    else if cur.isEmpty then rebuildAux [cf.1] cf.2 rest
    else (cur, curFmt) :: rebuildAux [cf.1] cf.2 rest

/-- `_rebuild_paragraph_with_formatting` (lines 301-333): clear the
paragraph's runs and install the grouped runs; each new run is created
by `add_run` (default formatting) and then `_apply_run_formatting` is
applied with the group's formatting. -/
def rebuild_paragraph_with_formatting (p : Para) (m : List CharFmt) : Para :=
  match m with
  | [] => { p with runs := [] }
  | cf :: _ =>
    { p with runs :=
        (rebuildAux [] cf.2 m).map (fun tf => ⟨tf.1, apply_run_formatting tf.2 defaultFmt⟩) }

/-- `_replace_with_formatting_preservation` (lines 180-250): build the
character map, find all matches of the (escaped, hence literal) pattern,
and if any exist splice them in reverse order and rebuild; the count is
the number of matches.  `none` models an escaping exception
(`IndexError` on `char_to_run_map[start_pos]`). -/
def replace_with_formatting_preservation
    (p : Para) (search_text replace_text : Text) (case_sensitive : Bool) :
    Option (Para × Nat) :=
  let cmap := buildCharMap p.runs
  let full_text := cmap.map Prod.fst
  let ms := findMatches (caseFold case_sensitive) search_text full_text
  if ms.isEmpty then some (p, 0)
  else
    match processMatches replace_text ms cmap with
    | none => none
    | some cmap' => some (rebuild_paragraph_with_formatting p cmap', ms.length)

/-- `_replace_text_in_paragraph` (lines 116-178).  Skips run-less
paragraphs; skips paragraphs not containing the search text (respecting
case); otherwise either the formatting-preserving path or the simple
path.  The simple case-sensitive path uses `str.replace` and counts with
`str.count`; the simple case-insensitive path uses `re.sub` with the
*unescaped* replacement as a template and counts with
`len(re.findall(...))`; both reset the paragraph to one default run,
and only count when the text actually changed. -/
def replace_text_in_paragraph
    (p : Para) (search_text replace_text : Text)
    (preserve_formatting case_sensitive : Bool) : Option (Para × Nat) :=
  if p.runs.isEmpty then some (p, 0)
  else
    let full_text := p.text
    let contains :=
      if case_sensitive then pyContains search_text full_text
      else pyContains (search_text.map pyLower) (full_text.map pyLower)
    if ¬ contains then some (p, 0)
    else if preserve_formatting then
      replace_with_formatting_preservation p search_text replace_text case_sensitive
    else if case_sensitive then
      let new_text := pyReplace search_text replace_text full_text
      if new_text ≠ full_text then
        some ({ p with runs := [⟨new_text, defaultFmt⟩] }, pyCount search_text full_text)
      else some (p, 0)
    else
      match reSub pyLower search_text replace_text full_text with
      | none => none
      | some new_text =>
        if new_text ≠ full_text then
          some ({ p with runs := [⟨new_text, defaultFmt⟩] },
                (findMatches pyLower search_text full_text).length)
        else some (p, 0)

/-- Process a list of items with a fallible counting step, threading the
total; the first failure aborts the whole list (the Python loop raises
out of `find_and_replace_text`). -/
def processList {α β : Type} (f : α → Option (β × Nat)) : List α → Option (List β × Nat)
  | [] => some ([], 0)
  | a :: as =>
    match f a with
    | none => none
    | some (b, n) =>
      match processList f as with
      | none => none
      | some (bs, m) => some (b :: bs, n + m)

/-- The per-paragraph step of `find_and_replace_text`. -/
abbrev processPara (s r : Text) (pv cs : Bool) (p : Para) : Option (Para × Nat) :=
  replace_text_in_paragraph p s r pv cs

/-- All paragraphs of a document section, each processed once. -/
abbrev processParas (s r : Text) (pv cs : Bool) : List Para → Option (List Para × Nat) :=
  processList (processPara s r pv cs)

/-- One table cell's paragraphs. -/
abbrev processCell (s r : Text) (pv cs : Bool) : List Para → Option (List Para × Nat) :=
  processParas s r pv cs

/-- One table row: its cells. -/
abbrev processRow (s r : Text) (pv cs : Bool) :
    List (List Para) → Option (List (List Para) × Nat) :=
  processList (processCell s r pv cs)

/-- One table: its rows. -/
abbrev processTable (s r : Text) (pv cs : Bool) : Table → Option (Table × Nat) :=
  processList (processRow s r pv cs)

/-- All tables of the document. -/
abbrev processTables (s r : Text) (pv cs : Bool) : List Table → Option (List Table × Nat) :=
  processList (processTable s r pv cs)

/-- `find_and_replace_text` (lines 68-114): every top-level paragraph,
then every table → row → cell → paragraph, summing the per-paragraph
replacement counts.  Any exception in one paragraph aborts the whole
pass (`except Exception` re-raised as `EditOperationError`, modelled by
`none`). -/
def find_and_replace_text (d : Doc) (search_text replace_text : Text)
    (preserve_formatting case_sensitive : Bool) : Option (Doc × Nat) :=
  match processParas search_text replace_text preserve_formatting case_sensitive d.paragraphs with
  | none => none
  | some (ps, n1) =>
    match processTables search_text replace_text preserve_formatting case_sensitive d.tables with
    | none => none
    | some (ts, n2) =>
      some ({ d with paragraphs := ps, tables := ts }, n1 + n2)

/-- Python `"\n".flatten(ts)`. -/
def joinNL : List Text → Text
  | [] => []
  | [t] => t
  | t :: ts => t ++ '\n' :: joinNL ts

/-- `get_document_text` (lines 483-497): joins the texts of the
*top-level* paragraphs with newlines; table cells are not visited. -/
def get_document_text (d : Doc) : Text :=
  joinNL (d.paragraphs.map Para.text)

/-- The flattened text of *everything* `find_and_replace_text` visits
(top-level paragraphs and table cells), used to state the spec's
document-level properties. -/
def docFullText (d : Doc) : Text :=
  joinNL ((visitedParas d).map Para.text)

/-! ## Bullet expansion (`replace_with_bullet_points`, resume placeholders) -/

/-- Python `str.strip()`: drop leading and trailing whitespace. -/
def pyStrip (t : Text) : Text :=
  ((t.dropWhile Char.isWhitespace).reverse.dropWhile Char.isWhitespace).reverse

/-- `_apply_bullet_formatting` (docx_processor.py lines 278-299): set the
`List Paragraph` style when the document has it, a 0.5-inch left indent
(457200 EMU), a -0.25-inch hanging first-line indent (-228600 EMU),
3 pt space-after (38100 EMU) and 1.15 line spacing. -/
def apply_bullet_formatting (hasStyle : Bool) (p : Para) : Para :=
  { p with
    styleName := if hasStyle then some "List Paragraph".data else p.styleName
    leftIndent := some 457200
    firstLineIndent := some (-228600)
    spaceAfter := some 38100
    lineSpacing := some 115 }

/-- The marker phrase looked for by `_find_template_bullet_formatting`. -/
def templatePhrase : Text := "add highlights with this style".data

/-- The paragraph scan of `_find_template_bullet_formatting`
(lines 399-412): the first paragraph whose stripped text starts with the
bullet glyph and contains the marker phrase case-insensitively, and that
has runs, yields its first run's formatting. -/
def findTemplateAux : List Para → Option Fmt
  | [] => none
  | p :: rest =>
    let t := pyStrip p.text
    if (t.take 1 = ['•']) && pyContains templatePhrase (t.map pyLower) then
      match p.runs with
      | r :: _ => some (extract_run_formatting r)
      | [] => findTemplateAux rest
    else findTemplateAux rest

/-- `_find_template_bullet_formatting` over the document's top-level
paragraphs. -/
def find_template_bullet_formatting (d : Doc) : Option Fmt :=
  findTemplateAux d.paragraphs

/-- The run of one additional bullet paragraph
(`replace_with_bullet_points` lines 384-387): text `"• " + item`, with
the template bullet formatting applied when one was found. -/
def mkBulletRun (tmpl : Option Fmt) (item : Text) : Run :=
  match tmpl with
  | some f => ⟨'•' :: ' ' :: item, apply_run_formatting f defaultFmt⟩
  | none => ⟨'•' :: ' ' :: item, defaultFmt⟩

/-- A paragraph freshly created by `document.add_paragraph()`. -/
def emptyPara : Para := ⟨[], none, none, none, none, none⟩

/-- One additional bullet paragraph, bullet-formatted. -/
def newBulletPara (hasStyle : Bool) (tmpl : Option Fmt) (item : Text) : Para :=
  apply_bullet_formatting hasStyle { emptyPara with runs := [mkBulletRun tmpl item] }

/-- The paragraph loop of `replace_with_bullet_points` (lines 360-395):
find the first paragraph containing the token (case-sensitively),
replace the token there via the formatting-preserving path (called with
`case_sensitive=False`) with `"• " + items[0]`, bullet-format that
paragraph, and insert the remaining items as new bullet paragraphs
immediately after it (each created at document end and then moved to
`paragraph_index + i`, which nets to consecutive insertion); then
`break`. -/
def bulletLoop (hasStyle : Bool) (tmpl : Option Fmt) (search_text : Text)
    (bullet_items : List Text) : List Para → Option (List Para × Nat)
  | [] => some ([], 0)
  | p :: rest =>
    if pyContains search_text p.text then
      match replace_with_formatting_preservation p search_text
          ('•' :: ' ' :: bullet_items.headD []) false with
      | none => none
      | some (p2, count) =>
        if 0 < count then
          some (apply_bullet_formatting hasStyle p2 ::
                ((bullet_items.drop 1).map (newBulletPara hasStyle tmpl) ++ rest), count)
        else some (p2 :: rest, 0)
    else
      match bulletLoop hasStyle tmpl search_text bullet_items rest with
      | none => none
      | some (ps, n) => some (p :: ps, n)

/-- `replace_with_bullet_points` (lines 335-397).  Returns 0 for an
empty item list; otherwise expands the token in the first containing
top-level paragraph, returning the number of token occurrences replaced
in that paragraph.  The `preserve_formatting` parameter of the source is
never read. -/
def replace_with_bullet_points (d : Doc) (search_text : Text)
    (bullet_items : List Text) (preserve_formatting : Bool) : Option (Doc × Nat) :=
  if bullet_items.isEmpty then some (d, 0)
  else
    match bulletLoop d.hasListParagraphStyle (find_template_bullet_formatting d)
        search_text bullet_items d.paragraphs with
    | none => none
    | some (ps, n) => some ({ d with paragraphs := ps }, n)

/-! ## The data tree and path resolution (resume_processor.py) -/

/-- `DataTree`: a parsed JSON value. -/
inductive JVal where
  | str : Text → JVal
  | num : Int → JVal
  | bool : Bool → JVal
  | null : JVal
  | arr : List JVal → JVal
  | obj : List (Text × JVal) → JVal

/-- Python `key.isdigit()` (ASCII digits; the engine's paths are
ASCII). -/
def isDigitStr (k : Text) : Bool := !k.isEmpty && k.all Char.isDigit

/-- Python `int(key)` for a digit string. -/
def textToNat (k : Text) : Nat := k.foldl (fun a c => a * 10 + (c.toNat - 48)) 0

/-- Python dict lookup on an insertion-ordered mapping with distinct
keys, modelled as first-match association lookup. -/
def lookupJson (m : List (Text × JVal)) (k : Text) : Option JVal :=
  match m with
  | [] => none
  | (a, b) :: rest => if a = k then some b else lookupJson rest k

/-- Python `path.split('.')` (always at least one segment). -/
def pySplitDot : Text → List Text
  | [] => [[]]
  | c :: rest =>
    if c = '.' then [] :: pySplitDot rest
    else
      match pySplitDot rest with
      | [] => [[c]]
      | g :: gs => (c :: g) :: gs

/-- The segment loop of `_get_nested_json_value`
(resume_processor.py lines 584-600): a digit segment indexes the current
node as a list (None when out of range or not a list), any other segment
looks the key up in the current node as a dict (None when missing or not
a dict). -/
def getNestedAux (v : JVal) (keys : List Text) : Option JVal :=
  match keys with
  | [] => some v
  | key :: rest =>
    if isDigitStr key then
      match v with
      | .arr xs =>
        if h : textToNat key < xs.length then getNestedAux (xs.get ⟨textToNat key, h⟩) rest
        else none
      | _ => none
    else
      match v with
      | .obj kvs =>
        match lookupJson kvs key with
        | some v2 => getNestedAux v2 rest
        | none => none
      | _ => none

/-- `_get_nested_json_value` (lines 579-602): split the path on `.` and
walk the tree; total (the Python `try/except` catch-all is modelled by
the explicit checks, which make it unreachable for ASCII paths). -/
def get_nested_json_value (data : JVal) (path : Text) : Option JVal :=
  getNestedAux data (pySplitDot path)

/-- Modelled from the spec (§4.5 PathResolver), for comparison with the
source's `get_nested_json_value`: one resolution step, where a
non-negative-integer-literal segment requires a list and indexes it
(absent if out of range or not a list) and any other segment requires a
mapping and looks the key up (absent if missing or not a mapping);
absent short-circuits. -/
def resolveSpecStep (node : Option JVal) (seg : Text) : Option JVal :=
  match node with
  | none => none
  | some v =>
    if isDigitStr seg then
      match v with
      | .arr xs => xs[textToNat seg]?
      | .str _ => none
      | .num _ => none
      | .bool _ => none
      | .null => none
      | .obj _ => none
    else
      match v with
      | .obj kvs => lookupJson kvs seg
      | .str _ => none
      | .num _ => none
      | .bool _ => none
      | .null => none
      | .arr _ => none

/-- Modelled from the spec (§4.5): split the path on `.` and fold the
step over the segments. -/
def resolveSpec (tree : JVal) (path : Text) : Option JVal :=
  (pySplitDot path).foldl resolveSpecStep (some tree)

/-! ## Value formatting, categorization, the template-replacement loop -/

/-- A single-quote character (for Python `repr` of strings). -/
def sqc : Char := Char.ofNat 39

/-- Join texts with a separator (Python `sep.join`). -/
def joinSep (sep : Text) : List Text → Text
  | [] => []
  | [t] => t
  | t :: ts => t ++ sep ++ joinSep sep ts

/-- Python `str(n)` for an integer. -/
def intToText (n : Int) : Text := (toString n).data

/-- Python `repr` of a parsed-JSON value (strings single-quoted; quote
escaping inside strings is not modelled — the engine's documents do not
contain quotes).  Used only through `pyStr` on lists and dicts. -/
def reprJVal (v : JVal) : Text :=
  match v with
  | .str s => sqc :: s ++ [sqc]
  | .num n => intToText n
  | .bool b => (if b then "True" else "False").data
  | .null => "None".data
  | .arr xs => '[' :: joinSep ", ".data (xs.attach.map (fun x => reprJVal x.1)) ++ [']']
  | .obj kvs =>
    '{' :: joinSep ", ".data
        (kvs.attach.map (fun kv => sqc :: kv.1.1 ++ sqc :: ':' :: ' ' :: reprJVal kv.1.2))
      ++ ['}']
decreasing_by
  · have := List.sizeOf_lt_of_mem x.2
    simp only [JVal.arr.sizeOf_spec]; omega
  · have h1 := List.sizeOf_lt_of_mem kv.2
    have h2 : sizeOf kv.1.2 < sizeOf kv.1 := by
      obtain ⟨a, b⟩ := kv.1
      simp only [Prod.mk.sizeOf_spec]; omega
    simp only [JVal.obj.sizeOf_spec]; omega

/-- Python `str(v)`: the string itself for strings, `repr` otherwise
(they agree on numbers, booleans and `None`). -/
def pyStr (v : JVal) : Text :=
  match v with
  | .str s => s
  | _ => reprJVal v

/-- `any(term in placeholder_key.lower() for term in ['highlights',
'responsibilities'])`. -/
def has_highlights_term (k : Text) : Bool :=
  pyContains "highlights".data (k.map pyLower)
    || pyContains "responsibilities".data (k.map pyLower)

/-- `_format_json_value` (resume_processor.py lines 604-632). -/
def format_json_value (v : JVal) (placeholder_key : Text) : Text :=
  match v with
  | .arr xs =>
    if pyContains "technical_skills".data (placeholder_key.map pyLower) then
      joinSep ", ".data (xs.map pyStr)
    else if has_highlights_term placeholder_key then
      if xs.isEmpty then []
      else joinSep ['\n'] (xs.map (fun x => '•' :: ' ' :: pyStr x))
    else joinSep ", ".data (xs.map pyStr)
  | _ => pyStr v

/-- `_categorize_placeholder` (lines 634-651): bucket by case-folded
substring tests. -/
def categorize_placeholder (placeholder_key : Text) : Text :=
  let key_lower := placeholder_key.map pyLower
  if pyContains "contact".data key_lower || pyContains "phone".data key_lower
      || pyContains "email".data key_lower || pyContains "linkedin".data key_lower then
    "contact_fields".data
  else if pyContains "technical_skills".data key_lower then "technical_skills".data
  else if pyContains "professional_experience".data key_lower then
    "professional_experience".data
  else if pyContains "project".data key_lower then "projects".data
  else if pyContains "education".data key_lower then "education".data
  else "basic_fields".data

/-- The `replacements_made` dictionary of
`apply_json_template_replacement` (lines 460-468). -/
structure Counts where
  basic_fields : Nat
  contact_fields : Nat
  technical_skills : Nat
  professional_experience : Nat
  projects : Nat
  education : Nat
  total_replacements : Nat
deriving DecidableEq

/-- All-zero counters. -/
def counts0 : Counts := ⟨0, 0, 0, 0, 0, 0, 0⟩

/-- `replacements_made[category] += count` for the six category keys
(`categorize_placeholder` returns no other key, so the fall-through
branch is unreachable). -/
def bumpCategory (c : Counts) (cat : Text) (n : Nat) : Counts :=
  if cat = "contact_fields".data then { c with contact_fields := c.contact_fields + n }
  else if cat = "technical_skills".data then
    { c with technical_skills := c.technical_skills + n }
  else if cat = "professional_experience".data then
    { c with professional_experience := c.professional_experience + n }
  else if cat = "projects".data then { c with projects := c.projects + n }
  else if cat = "education".data then { c with education := c.education + n }
  else if cat = "basic_fields".data then { c with basic_fields := c.basic_fields + n }
  else c

/-- `replacements_made['total_replacements'] += count`. -/
def bumpTotal (c : Counts) (n : Nat) : Counts :=
  { c with total_replacements := c.total_replacements + n }

/-- Python dict lookup on the alias table (`placeholder_key in
all_mappings` then `all_mappings[placeholder_key]`): exact, hence
case-sensitive, key equality. -/
def lookupAssoc (m : List (Text × Text)) (k : Text) : Option Text :=
  match m with
  | [] => none
  | (a, b) :: rest => if a = k then some b else lookupAssoc rest k

/-- The loop body of `apply_json_template_replacement`
(resume_processor.py lines 488-540) for one discovered placeholder:
strip the body, resolve it through the alias table (exact-key lookup)
or directly as a path; skip unresolved tokens; list values whose key
names a highlights-like field go through
`replace_with_bullet_points`, every other value is formatted and
replaced via `find_and_replace_text` with `preserve_formatting=True`
and `case_sensitive=False`; a positive count is added to the token's
category bucket and the grand total. -/
def process_placeholder (resume_data : JVal) (all_mappings : List (Text × Text))
    (st : Doc × Counts) (placeholder : Text) : Option (Doc × Counts) :=
  let placeholder_key := pyStrip placeholder
  let replacement_value :=
    match lookupAssoc all_mappings placeholder_key with
    | some json_path => get_nested_json_value resume_data json_path
    | none => get_nested_json_value resume_data placeholder_key
  match replacement_value with
  | none => some st
  | some v =>
    let full_placeholder := '{' :: '{' :: (placeholder ++ ['}', '}'])
    let regular : JVal → Option (Doc × Counts) := fun vv =>
      match find_and_replace_text st.1 full_placeholder
          (format_json_value vv (pyStrip placeholder)) true false with
      | none => none
      | some (d2, count) =>
        some (d2,
          if 0 < count then
            bumpTotal (bumpCategory st.2 (categorize_placeholder (pyStrip placeholder)) count)
              count
          else st.2)
    match v with
    | .arr items =>
      if has_highlights_term placeholder_key then
        match replace_with_bullet_points st.1 full_placeholder (items.map pyStr) true with
        | none => none
        | some (d2, count) =>
          some (d2,
            if 0 < count then
              bumpTotal (bumpCategory st.2 (categorize_placeholder placeholder_key) count)
                count
            else st.2)
      else regular (.arr items)
    | _ => regular v

/-- The placeholder scan of `apply_json_template_replacement`
(lines 470-476): `re.findall(r'\{\{([^}]+)\}\}', doc_text)` — every
(leftmost, non-overlapping) occurrence of `{{`, one or more
non-`}` characters, `}}`, yielding the bodies in scan order with
duplicates retained. -/
def findTokens (t : Text) : List Text :=
  match t with
  | [] => []
  | [_] => []
  | c1 :: c2 :: rest2 =>
    if c1 = '{' ∧ c2 = '{' then
      -- the candidate body is the maximal run of non-brace characters after
      -- `{{`; the regex matches here iff it is nonempty and followed by `}}`,
      -- and scanning then resumes after the closing braces; otherwise the
      -- scan advances one character (to the second `{`)
      let body := rest2.takeWhile (fun x => x ≠ '}')
      if !body.isEmpty && (rest2.drop body.length).take 2 = ['}', '}'] then
        body :: findTokens (rest2.drop (body.length + 2))
      else findTokens (c2 :: rest2)
    else findTokens (c2 :: rest2)
termination_by t.length
decreasing_by all_goals simp only [List.length_drop, List.length_cons]; omega

/-- The placeholder list the expansion pass iterates over: tokens of
`get_document_text` — the *top-level* paragraphs' flattened text only. -/
def discoveredPlaceholders (d : Doc) : List Text :=
  findTokens (get_document_text d)

/-! ## Run minimality, and the concrete inputs of the claim checks -/

/-- From a preceding formatting value `f` on: every run has nonempty text,
a formatting different from its predecessor's, and the rest continues the
chain. -/
def minimalFrom (f : Fmt) : List Run → Bool
  | [] => true
  | rn :: rest => (!rn.text.isEmpty) && (rn.fmt ≠ f) && minimalFrom rn.fmt rest

/-- The runs are in coalesced normal form: all texts nonempty and no two
adjacent runs share a formatting value (the form `rebuildAux` emits). -/
def minimalRuns : List Run → Bool
  | [] => true
  | rn :: rest => (!rn.text.isEmpty) && minimalFrom rn.fmt rest

/-- String-literal shorthand for `Text`. -/
def strT (s : String) : Text := s.data

/-- A bold formatting value. -/
def boldFmt : Fmt := { defaultFmt with bold := some true }

/-- A formatting value with the falsy font size 0. -/
def zeroSizeFmt : Fmt := { defaultFmt with font_size := some 0 }

/-- A paragraph with the given runs and no layout attributes. -/
def mkPara (runs : List Run) : Para := ⟨runs, none, none, none, none, none⟩

/-- C1 counterexample input: one paragraph reading just the search text. -/
def dC1 : Doc := ⟨[paraOf "a"], [], false⟩

/-- C1 witness input: two occurrences in a top-level paragraph, one in a
table cell. -/
def dC1w : Doc := ⟨[paraOf "ab ab"], [[[[paraOf "ab"]]]], false⟩

/-- C2 witness input: the spec's example paragraph, with a bold run. -/
def pC2w : Para :=
  mkPara [⟨strT "a ", defaultFmt⟩, ⟨strT "BOLD", boldFmt⟩, ⟨strT " b", defaultFmt⟩]

/-- C2 counterexample input: one run formatted with font size 0. -/
def pC2c : Para := mkPara [⟨strT "x", zeroSizeFmt⟩]

/-- C3 failing input: one paragraph with text "ab". -/
def dC3 : Doc := ⟨[paraOf "ab"], [], false⟩

/-- C4 counterexample input: a match spanning a plain and a bold run. -/
def pC4c : Para := mkPara [⟨strT "a", defaultFmt⟩, ⟨strT "b", boldFmt⟩]

/-- C4 witness input: minimal runs, the match inside the bold run. -/
def pC4w : Para := mkPara [⟨strT "one ", defaultFmt⟩, ⟨strT "two", boldFmt⟩]

/-- C5 counterexample input: one paragraph that is exactly the token. -/
def dC5c : Doc := ⟨[paraOf "{{h}}"], [], false⟩

/-- C5 witness input: a token-free paragraph followed by one containing
the token. -/
def dC5w : Doc := ⟨[paraOf "head", paraOf "see {{hl}}"], [], false⟩

/-- C6 counterexample input: the token occurs only inside a table cell. -/
def dC6c : Doc := ⟨[paraOf ""], [[[[paraOf "{{x}}"]]]], false⟩

/-- C6 counterexample input: the same token twice in the top-level text. -/
def dC6c2 : Doc := ⟨[paraOf "{{a}} {{a}}"], [], false⟩

/-- C6 witness input: one well-formed token in a top-level paragraph. -/
def dC6w : Doc := ⟨[paraOf "intro {{name}} outro"], [], false⟩

/-- C8 counterexample input: two paragraphs; the empty search string makes
the first fail. -/
def dC8 : Doc := ⟨[paraOf "ab", paraOf "cd"], [], false⟩

/-- C9 counterexample input: the same token in two casings. -/
def dC9 : Doc := ⟨[paraOf "{{NAME}}", paraOf "{{name}}"], [], false⟩

/-- C9 counterexample data tree. -/
def resumeC9 : JVal := JVal.obj [(strT "name", JVal.str (strT "X"))]

/-! # Lemmas

## Matching basics -/

theorem matchAt_iff (φ : Char → Char) (s t : Text) :
    matchAt φ s t = true ↔ (s.map φ) <+: (t.map φ) := by
  simp [matchAt, List.isPrefixOf_iff_prefix]

theorem matchAt_id_iff (s t : Text) : matchAt id s t = true ↔ s <+: t := by
  simp [matchAt, List.isPrefixOf_iff_prefix]

theorem matchAt_length_le {φ : Char → Char} {s t : Text} (h : matchAt φ s t = true) :
    s.length ≤ t.length := by
  have h2 := (matchAt_iff φ s t).1 h
  simpa using h2.length_le

theorem matchAt_take {φ : Char → Char} {s t : Text} (h : matchAt φ s t = true) :
    (t.map φ).take s.length = s.map φ := by
  have h2 := (matchAt_iff φ s t).1 h
  obtain ⟨tl, htl⟩ := h2
  rw [← htl]
  simpa using List.take_left (s.map φ) tl

theorem matchAt_id_take {s t : Text} (h : matchAt id s t = true) :
    t.take s.length = s := by
  have h2 := matchAt_take h
  simpa using h2

theorem matchAt_false_of_head {s : Text} {c : Char} {t : Text} (hs : s ≠ [])
    (hc : c ∉ s) : matchAt id s (c :: t) = false := by
  by_contra h
  have h2 : s <+: c :: t := (matchAt_id_iff s (c :: t)).1 (by
    cases hmt : matchAt id s (c :: t)
    · exact absurd hmt h
    · rfl)
  match s, hs with
  | s0 :: s1, _ =>
    obtain ⟨tl, htl⟩ := h2
    have : s0 = c := by
      have := congrArg (fun l => l.head?) htl
      simpa using this
    exact hc (this ▸ List.mem_cons_self s0 s1)

theorem findMatchesAux_eq_nil_iff (φ : Char → Char) (s : Text) (hs : s ≠ []) :
    ∀ (n : Nat) (t : Text), t.length ≤ n → ∀ (i : Nat),
      (findMatchesAux φ s t i = [] ↔ ¬ (s.map φ) <:+: (t.map φ)) := by
  intro n
  induction n with
  | zero =>
    intro t ht i
    have ht0 : t = [] := List.length_eq_zero.1 (Nat.le_zero.1 ht)
    subst ht0
    rw [findMatchesAux]
    simp [List.infix_nil, hs]
  | succ n ih =>
    intro t ht i
    match t with
    | [] =>
      rw [findMatchesAux]
      simp [List.infix_nil, hs]
    | c :: rest =>
      rw [findMatchesAux]
      by_cases hmt : matchAt φ s (c :: rest) = true
      · simp only [hmt, if_true]
        constructor
        · intro h; exact absurd h (List.cons_ne_nil _ _)
        · intro h
          exact absurd (((matchAt_iff φ s (c :: rest)).1 hmt).isInfix) h
      · simp only [hmt, if_false, Bool.false_eq_true]
        have hrest : rest.length ≤ n := by
          have := ht; simp only [List.length_cons] at this; omega
        rw [ih rest hrest (i + 1)]
        constructor
        · intro h h2
          apply h
          rw [List.map_cons, List.infix_cons_iff] at h2
          rcases h2 with h2 | h2
          · exact absurd ((matchAt_iff φ s (c :: rest)).2 (by simpa using h2)) hmt
          · exact h2
        · intro h h2
          exact h (by rw [List.map_cons, List.infix_cons_iff]; exact Or.inr h2)

theorem findMatchesAux_nil_iff (φ : Char → Char) {s : Text} (hs : s ≠ []) (t : Text) (i : Nat) :
    findMatchesAux φ s t i = [] ↔ ¬ (s.map φ) <:+: (t.map φ) :=
  findMatchesAux_eq_nil_iff φ s hs t.length t (Nat.le_refl _) i

theorem findMatchesAux_length_indep (φ : Char → Char) (s : Text) :
    ∀ (n : Nat) (t : Text), t.length ≤ n → ∀ (i j : Nat),
      (findMatchesAux φ s t i).length = (findMatchesAux φ s t j).length := by
  intro n
  induction n with
  | zero =>
    intro t ht i j
    have ht0 : t = [] := List.length_eq_zero.1 (Nat.le_zero.1 ht)
    subst ht0; rw [findMatchesAux, findMatchesAux]
  | succ n ih =>
    intro t ht i j
    match t with
    | [] => rw [findMatchesAux, findMatchesAux]
    | c :: rest =>
      rw [findMatchesAux, findMatchesAux]
      by_cases hmt : matchAt φ s (c :: rest) = true
      · simp only [hmt, if_true, List.length_cons]
        have hd : (rest.drop (s.length - 1)).length ≤ n := by
          have := ht; simp only [List.length_drop, List.length_cons] at *; omega
        rw [ih _ hd (i + s.length) (j + s.length)]
      · simp only [hmt, if_false, Bool.false_eq_true]
        have hrest : rest.length ≤ n := by
          have := ht; simp only [List.length_cons] at this; omega
        exact ih rest hrest (i + 1) (j + 1)

theorem pyCountAux_eq_length (s : Text) :
    ∀ (n : Nat) (t : Text), t.length ≤ n → ∀ (i : Nat),
      pyCountAux s t = (findMatchesAux id s t i).length := by
  intro n
  induction n with
  | zero =>
    intro t ht i
    have ht0 : t = [] := List.length_eq_zero.1 (Nat.le_zero.1 ht)
    subst ht0; rw [pyCountAux, findMatchesAux]; rfl
  | succ n ih =>
    intro t ht i
    match t with
    | [] => rw [pyCountAux, findMatchesAux]; rfl
    | c :: rest =>
      rw [pyCountAux, findMatchesAux]
      by_cases hmt : matchAt id s (c :: rest) = true
      · simp only [hmt, if_true, List.length_cons]
        have hd : (rest.drop (s.length - 1)).length ≤ n := by
          have := ht; simp only [List.length_drop, List.length_cons] at *; omega
        rw [ih _ hd (i + s.length)]
        omega
      · simp only [hmt, if_false, Bool.false_eq_true]
        have hrest : rest.length ≤ n := by
          have := ht; simp only [List.length_cons] at this; omega
        exact ih rest hrest (i + 1)

theorem pyContains_iff (s t : Text) : pyContains s t = true ↔ s <:+: t := by
  simp [pyContains]

theorem processMatches_spec (φ : Char → Char) (s r : Text) (hs : s ≠ []) :
    ∀ (n : Nat) (m pre : List CharFmt), m.length ≤ n →
      processMatches r (findMatchesAux φ s (m.map Prod.fst) pre.length) (pre ++ m)
        = some (pre ++ replaceMapBy φ s r m) := by
  intro n
  induction n with
  | zero =>
    intro m pre hm
    have hm0 : m = [] := List.length_eq_zero.1 (Nat.le_zero.1 hm)
    subst hm0
    rw [replaceMapBy, List.map_nil, findMatchesAux]
    rfl
  | succ n ih =>
    intro m pre hm
    match m with
    | [] =>
      rw [replaceMapBy, List.map_nil, findMatchesAux]
      rfl
    | cf :: rest =>
      have hmap : (cf :: rest).map Prod.fst = cf.1 :: rest.map Prod.fst := rfl
      rw [hmap, findMatchesAux, replaceMapBy]
      by_cases hmt : matchAt φ s (cf.1 :: rest.map Prod.fst) = true
      · simp only [hmap, hmt, if_true]
        have hk1 : 1 ≤ s.length := by
          match s, hs with
          | c0 :: s1, _ => simp
        have hkle : s.length ≤ rest.length + 1 := by
          have h2 := matchAt_length_le hmt
          simpa using h2
        have hk2 : s.length = (s.length - 1) + 1 := by omega
        have hdrop2 : rest.drop (s.length - 1) = (cf :: rest).drop s.length := by
          conv_rhs => rw [hk2]
          rw [List.drop_succ_cons]
        have hdrop : (rest.map Prod.fst).drop (s.length - 1)
            = ((cf :: rest).drop s.length).map Prod.fst := by
          rw [← List.map_drop, hdrop2]
        have htakelen : ((cf :: rest).take s.length).length = s.length := by
          simp only [List.length_take, List.length_cons]
          omega
        have hpre2 : pre.length + s.length = (pre ++ (cf :: rest).take s.length).length := by
          simp [htakelen]
        have hsplit : pre ++ cf :: rest
            = (pre ++ (cf :: rest).take s.length) ++ (cf :: rest).drop s.length := by
          rw [List.append_assoc, List.take_append_drop]
        have hm2 : ((cf :: rest).drop s.length).length ≤ n := by
          simp only [List.length_drop, List.length_cons]
          simp only [List.length_cons] at hm
          omega
        have hget : ((pre ++ (cf :: rest).take s.length)
              ++ replaceMapBy φ s r ((cf :: rest).drop s.length))[pre.length]?
            = some cf := by
          rw [List.append_assoc, List.getElem?_append_right (Nat.le_refl _)]
          rw [Nat.sub_self, List.getElem?_append]
          rw [if_pos (by omega)]
          obtain ⟨j, hj⟩ : ∃ j, s.length = j + 1 := ⟨s.length - 1, by omega⟩
          rw [hj]
          simp
        have htake : ((pre ++ (cf :: rest).take s.length)
              ++ replaceMapBy φ s r ((cf :: rest).drop s.length)).take pre.length = pre := by
          rw [List.append_assoc, List.take_append_of_le_length (by simp)]
          simp
        have hdropBig : ((pre ++ (cf :: rest).take s.length)
              ++ replaceMapBy φ s r ((cf :: rest).drop s.length)).drop
                (pre ++ (cf :: rest).take s.length).length
            = replaceMapBy φ s r ((cf :: rest).drop s.length) := List.drop_left _ _
        rw [processMatches, hdrop, hpre2, hsplit,
          ih ((cf :: rest).drop s.length) (pre ++ (cf :: rest).take s.length) hm2]
        simp only [spliceOne, hget, htake, hdropBig, hdrop2]
        simp
      · simp only [hmap, hmt, Bool.false_eq_true, if_false]
        have hm3 : rest.length ≤ n := by
          simp only [List.length_cons] at hm
          omega
        have hpre2 : pre.length + 1 = (pre ++ [cf]).length := by simp
        have hsplit : pre ++ cf :: rest = (pre ++ [cf]) ++ rest := by simp
        rw [hpre2, hsplit, ih rest (pre ++ [cf]) hm3]
        simp

theorem processMatches_eq (φ : Char → Char) (s r : Text) (hs : s ≠ []) (m : List CharFmt) :
    processMatches r (findMatchesAux φ s (m.map Prod.fst) 0) m
      = some (replaceMapBy φ s r m) := by
  have h := processMatches_spec φ s r hs m.length m [] (Nat.le_refl _)
  simpa using h

theorem text_eq_charMap_fst (p : Para) : p.text = (buildCharMap p.runs).map Prod.fst := by
  simp [Para.text, buildCharMap, List.map_flatten, List.map_map, Function.comp_def]

theorem isEmpty_false_of_ne_nil {α : Type} {l : List α} (h : l ≠ []) : l.isEmpty = false := by
  cases l with
  | nil => exact absurd rfl h
  | cons a as => rfl

theorem rwfp_some (p : Para) (s r : Text) (cs : Bool) (hs : s ≠ [])
    (hne : findMatchesAux (caseFold cs) s ((buildCharMap p.runs).map Prod.fst) 0 ≠ []) :
    replace_with_formatting_preservation p s r cs
      = some (rebuild_paragraph_with_formatting p
            (replaceMapBy (caseFold cs) s r (buildCharMap p.runs)),
          (findMatchesAux (caseFold cs) s ((buildCharMap p.runs).map Prod.fst) 0).length) := by
  have hse : s.isEmpty = false := isEmpty_false_of_ne_nil hs
  rw [replace_with_formatting_preservation]
  simp only [findMatches, hse, Bool.false_eq_true, if_false,
    isEmpty_false_of_ne_nil hne, processMatches_eq (caseFold cs) s r hs (buildCharMap p.runs)]

theorem rwfp_nomatch (p : Para) (s r : Text) (cs : Bool) (hs : s ≠ [])
    (h : findMatchesAux (caseFold cs) s ((buildCharMap p.runs).map Prod.fst) 0 = []) :
    replace_with_formatting_preservation p s r cs = some (p, 0) := by
  have hse : s.isEmpty = false := isEmpty_false_of_ne_nil hs
  rw [replace_with_formatting_preservation]
  simp only [findMatches, hse, Bool.false_eq_true, if_false, h]
  rfl

theorem rebuildAux_flatten (g : Fmt → Fmt) :
    ∀ (m : List CharFmt) (cur : Text) (f : Fmt),
      ((rebuildAux cur f m).map (fun tf => tf.1.map (fun c => (c, g tf.2)))).flatten
        = cur.map (fun c => (c, g f)) ++ m.map (fun cf => (cf.1, g cf.2)) := by
  intro m
  induction m with
  | nil =>
    intro cur f
    by_cases hc : cur.isEmpty
    · have hc2 : cur = [] := by simpa using hc
      subst hc2
      simp [rebuildAux]
    · simp [rebuildAux, hc]
  | cons cf rest ih =>
    intro cur f
    rw [rebuildAux]
    by_cases h1 : cf.2 = f
    · rw [if_pos h1, ih]
      simp [h1]
    · rw [if_neg h1]
      by_cases h2 : cur.isEmpty
      · rw [if_pos h2, ih]
        have hc2 : cur = [] := by simpa using h2
        subst hc2
        simp
      · rw [if_neg h2]
        simp [ih]

theorem buildCharMap_rebuild (p : Para) (m : List CharFmt) :
    buildCharMap (rebuild_paragraph_with_formatting p m).runs
      = m.map (fun cf => (cf.1, apply_run_formatting cf.2 defaultFmt)) := by
  match m with
  | [] => simp [rebuild_paragraph_with_formatting, buildCharMap]
  | cf :: rest =>
    rw [rebuild_paragraph_with_formatting]
    rw [buildCharMap, List.map_map]
    have h := rebuildAux_flatten (fun f => apply_run_formatting f defaultFmt) (cf :: rest) [] cf.2
    simp only [List.map_nil, List.nil_append] at h
    rw [← h]
    congr 1

theorem text_rebuild (p : Para) (m : List CharFmt) :
    (rebuild_paragraph_with_formatting p m).text = m.map Prod.fst := by
  rw [text_eq_charMap_fst, buildCharMap_rebuild]
  rw [List.map_map]
  apply List.map_congr_left
  intro cf _
  rfl

theorem replaceMapBy_fst (φ : Char → Char) (s r : Text) :
    ∀ (n : Nat) (m : List CharFmt), m.length ≤ n →
      (replaceMapBy φ s r m).map Prod.fst = replaceAllBy φ s r (m.map Prod.fst) := by
  intro n
  induction n with
  | zero =>
    intro m hm
    have hm0 : m = [] := List.length_eq_zero.1 (Nat.le_zero.1 hm)
    subst hm0
    rw [replaceMapBy, List.map_nil, replaceAllBy]
  | succ n ih =>
    intro m hm
    match m with
    | [] =>
      rw [replaceMapBy, List.map_nil, replaceAllBy]
    | cf :: rest =>
      have hmap : (cf :: rest).map Prod.fst = cf.1 :: rest.map Prod.fst := rfl
      rw [replaceMapBy, hmap, replaceAllBy]
      by_cases hmt : matchAt φ s (cf.1 :: rest.map Prod.fst) = true
      · rw [if_pos hmt, if_pos hmt]
        have hlen : (rest.drop (s.length - 1)).length ≤ n := by
          simp only [List.length_drop]
          simp only [List.length_cons] at hm
          omega
        rw [List.map_append, ih (rest.drop (s.length - 1)) hlen, List.map_map]
        simp [List.map_drop, Function.comp_def]
      · rw [if_neg hmt, if_neg hmt]
        have hlen : rest.length ≤ n := by
          simp only [List.length_cons] at hm
          omega
        rw [List.map_cons, ih rest hlen]

theorem pairs_reconstruct :
    ∀ (l : List CharFmt) (f : Fmt), (∀ x ∈ l, x.2 = f) →
      (l.map Prod.fst).map (fun c => (c, f)) = l := by
  intro l
  induction l with
  | nil => intro f _; rfl
  | cons x rest ih =>
    intro f h
    have hx : x.2 = f := h x (List.mem_cons_self x rest)
    have hr := ih f (fun y hy => h y (List.mem_cons_of_mem x hy))
    simp only [List.map_cons, hr, List.cons.injEq, and_true]
    rw [← hx]

theorem replaceMapBy_self (s : Text) (hs : s ≠ []) :
    ∀ (n : Nat) (m : List CharFmt), m.length ≤ n → matchesUniform s m = true →
      replaceMapBy id s s m = m := by
  intro n
  induction n with
  | zero =>
    intro m hm _
    have hm0 : m = [] := List.length_eq_zero.1 (Nat.le_zero.1 hm)
    subst hm0
    rw [replaceMapBy]
  | succ n ih =>
    intro m hm huni
    match m with
    | [] => rw [replaceMapBy]
    | cf :: rest =>
      rw [matchesUniform] at huni
      rw [replaceMapBy]
      by_cases hmt : matchAt id s ((cf :: rest).map Prod.fst) = true
      · rw [if_pos hmt]
        rw [if_pos hmt, Bool.and_eq_true] at huni
        have hall : ∀ x ∈ (cf :: rest).take s.length, x.2 = cf.2 := by
          intro x hx
          have := (List.all_eq_true.1 huni.1) x hx
          simpa using this
        have htake : ((cf :: rest).map Prod.fst).take s.length = s := matchAt_id_take hmt
        have hs2 : s.map (fun c => (c, cf.2)) = (cf :: rest).take s.length := by
          have h1 : ((cf :: rest).take s.length).map Prod.fst = s := by
            rw [List.map_take, htake]
          conv_lhs => rw [← h1]
          exact pairs_reconstruct _ cf.2 hall
        have hlen : (rest.drop (s.length - 1)).length ≤ n := by
          simp only [List.length_drop]
          simp only [List.length_cons] at hm
          omega
        rw [hs2, ih (rest.drop (s.length - 1)) hlen huni.2]
        have hk1 : 1 ≤ s.length := by
          match s, hs with
          | c0 :: s1, _ => simp
        have hk2 : s.length = (s.length - 1) + 1 := by omega
        have hdrop2 : rest.drop (s.length - 1) = (cf :: rest).drop s.length := by
          conv_rhs => rw [hk2]
          rw [List.drop_succ_cons]
        rw [hdrop2, List.take_append_drop]
      · rw [if_neg hmt]
        rw [if_neg hmt] at huni
        have hlen : rest.length ≤ n := by
          simp only [List.length_cons] at hm
          omega
        rw [ih rest hlen huni]

theorem replaceAllBy_self (s : Text) (hs : s ≠ []) :
    ∀ (n : Nat) (t : Text), t.length ≤ n → replaceAllBy id s s t = t := by
  intro n
  induction n with
  | zero =>
    intro t ht
    have ht0 : t = [] := List.length_eq_zero.1 (Nat.le_zero.1 ht)
    subst ht0
    rw [replaceAllBy]
  | succ n ih =>
    intro t ht
    match t with
    | [] => rw [replaceAllBy]
    | c :: rest =>
      rw [replaceAllBy]
      by_cases hmt : matchAt id s (c :: rest) = true
      · rw [if_pos hmt]
        have htake : (c :: rest).take s.length = s := matchAt_id_take hmt
        have hk1 : 1 ≤ s.length := by
          match s, hs with
          | c0 :: s1, _ => simp
        have hk2 : s.length = (s.length - 1) + 1 := by omega
        have hdrop2 : rest.drop (s.length - 1) = (c :: rest).drop s.length := by
          conv_rhs => rw [hk2]
          rw [List.drop_succ_cons]
        have hlen : (rest.drop (s.length - 1)).length ≤ n := by
          simp only [List.length_drop]
          simp only [List.length_cons] at ht
          omega
        have hjoin : s ++ (c :: rest).drop s.length = c :: rest := by
          conv_rhs => rw [← List.take_append_drop s.length (c :: rest)]
          rw [htake]
        rw [ih _ hlen, hdrop2, hjoin]
      · rw [if_neg hmt]
        have hlen : rest.length ≤ n := by
          simp only [List.length_cons] at ht
          omega
        rw [ih rest hlen]

theorem replaceAllBy_no_occ (φ : Char → Char) (s r : Text) (hs : s ≠ []) :
    ∀ (n : Nat) (t : Text), t.length ≤ n → ¬ (s.map φ) <:+: (t.map φ) →
      replaceAllBy φ s r t = t := by
  intro n
  induction n with
  | zero =>
    intro t ht _
    have ht0 : t = [] := List.length_eq_zero.1 (Nat.le_zero.1 ht)
    subst ht0
    rw [replaceAllBy]
  | succ n ih =>
    intro t ht hocc
    match t with
    | [] => rw [replaceAllBy]
    | c :: rest =>
      rw [replaceAllBy]
      have hmt : ¬ matchAt φ s (c :: rest) = true := by
        intro h
        exact hocc ((matchAt_iff φ s (c :: rest)).1 h).isInfix
      rw [if_neg hmt]
      have hocc2 : ¬ (s.map φ) <:+: (rest.map φ) := by
        intro h
        exact hocc (by rw [List.map_cons, List.infix_cons_iff]; exact Or.inr h)
      have hlen : rest.length ≤ n := by
        simp only [List.length_cons] at ht
        omega
      rw [ih rest hlen hocc2]

theorem replaceAllBy_length (φ : Char → Char) (s r : Text) (hs : s ≠ []) :
    ∀ (n : Nat) (t : Text), t.length ≤ n →
      (replaceAllBy φ s r t).length + (findMatchesAux φ s t 0).length * s.length
        = t.length + (findMatchesAux φ s t 0).length * r.length := by
  intro n
  induction n with
  | zero =>
    intro t ht
    have ht0 : t = [] := List.length_eq_zero.1 (Nat.le_zero.1 ht)
    subst ht0
    rw [replaceAllBy, findMatchesAux]
    simp
  | succ n ih =>
    intro t ht
    match t with
    | [] =>
      rw [replaceAllBy, findMatchesAux]
      simp
    | c :: rest =>
      rw [replaceAllBy, findMatchesAux]
      by_cases hmt : matchAt φ s (c :: rest) = true
      · rw [if_pos hmt, if_pos hmt]
        have hkle : s.length ≤ rest.length + 1 := by
          have h2 := matchAt_length_le hmt
          simpa using h2
        have hk1 : 1 ≤ s.length := by
          match s, hs with
          | c0 :: s1, _ => simp
        have hlen : (rest.drop (s.length - 1)).length ≤ n := by
          simp only [List.length_drop]
          simp only [List.length_cons] at ht
          omega
        have hih := ih (rest.drop (s.length - 1)) hlen
        have hind : (findMatchesAux φ s (rest.drop (s.length - 1)) (0 + s.length)).length
            = (findMatchesAux φ s (rest.drop (s.length - 1)) 0).length :=
          findMatchesAux_length_indep φ s _ _ (Nat.le_refl _) _ _
        simp only [List.length_append, List.length_cons, List.length_drop] at hih ⊢
        rw [hind]
        generalize (findMatchesAux φ s (rest.drop (s.length - 1)) 0).length = A at hih ⊢
        have e1 : (A + 1) * s.length = A * s.length + s.length := by ring
        have e2 : (A + 1) * r.length = A * r.length + r.length := by ring
        rw [e1, e2]
        generalize A * s.length = P at hih ⊢
        generalize A * r.length = Q at hih ⊢
        omega
      · rw [if_neg hmt, if_neg hmt]
        have hlen2 : rest.length ≤ n := by
          simp only [List.length_cons] at ht
          omega
        have hih := ih rest hlen2
        have hind : (findMatchesAux φ s rest (0 + 1)).length
            = (findMatchesAux φ s rest 0).length :=
          findMatchesAux_length_indep φ s _ _ (Nat.le_refl _) _ _
        simp only [List.length_cons] at hih ⊢
        rw [hind]
        generalize (findMatchesAux φ s rest 0).length = A at hih ⊢
        generalize A * s.length = P at hih ⊢
        generalize A * r.length = Q at hih ⊢
        omega

theorem findMatchesAux_ne_nil_of_infix (φ : Char → Char) {s : Text} (hs : s ≠ []) {t : Text}
    (h : (s.map φ) <:+: (t.map φ)) (i : Nat) : findMatchesAux φ s t i ≠ [] := by
  intro h2
  exact (findMatchesAux_nil_iff φ hs t i).1 h2 h

theorem replaceAllBy_ne_eqlen (s r : Text) (hs : s ≠ []) (hr : r ≠ s)
    (hlen : r.length = s.length) :
    ∀ (n : Nat) (t : Text), t.length ≤ n → s <:+: t → replaceAllBy id s r t ≠ t := by
  intro n
  induction n with
  | zero =>
    intro t ht hocc
    have ht0 : t = [] := List.length_eq_zero.1 (Nat.le_zero.1 ht)
    subst ht0
    rw [List.infix_nil] at hocc
    exact absurd hocc hs
  | succ n ih =>
    intro t ht hocc
    match t with
    | [] =>
      rw [List.infix_nil] at hocc
      exact absurd hocc hs
    | c :: rest =>
      rw [replaceAllBy]
      by_cases hmt : matchAt id s (c :: rest) = true
      · rw [if_pos hmt]
        intro heq
        have htake : (c :: rest).take s.length = s := matchAt_id_take hmt
        have hsplit : c :: rest
            = (c :: rest).take s.length ++ (c :: rest).drop s.length := by
          rw [List.take_append_drop]
        rw [hsplit, htake] at heq
        have hinj := List.append_inj heq (by rw [hlen])
        exact hr hinj.1
      · rw [if_neg hmt]
        have hocc2 : s <:+: rest := by
          rcases (List.infix_cons_iff).1 hocc with h2 | h2
          · exact absurd ((matchAt_id_iff s (c :: rest)).2 h2) hmt
          · exact h2
        have hlen2 : rest.length ≤ n := by
          simp only [List.length_cons] at ht
          omega
        intro heq
        rw [List.cons.injEq] at heq
        exact ih rest hlen2 hocc2 heq.2

theorem replaceAllBy_ne (s r : Text) (hs : s ≠ []) (hr : r ≠ s) (t : Text)
    (hocc : s <:+: t) : replaceAllBy id s r t ≠ t := by
  by_cases hlen : r.length = s.length
  · exact replaceAllBy_ne_eqlen s r hs hr hlen t.length t (Nat.le_refl _) hocc
  · intro heq
    have hL := replaceAllBy_length id s r hs t.length t (Nat.le_refl _)
    rw [heq] at hL
    have hM : findMatchesAux id s t 0 ≠ [] := by
      apply findMatchesAux_ne_nil_of_infix id hs _ 0
      simpa using hocc.map id
    have hM1 : 1 ≤ (findMatchesAux id s t 0).length := by
      cases hfm : findMatchesAux id s t 0 with
      | nil => exact absurd hfm hM
      | cons a as => simp
    have := Nat.eq_of_mul_eq_mul_left (by omega : 0 < (findMatchesAux id s t 0).length)
      (by omega : (findMatchesAux id s t 0).length * s.length
        = (findMatchesAux id s t 0).length * r.length)
    exact hlen this.symm

/-! ## Substitution distributes over the newline-joined document text -/

theorem prefix_append_sep {s a b : Text} (hnl : '\n' ∉ s)
    (h : s <+: a ++ '\n' :: b) : s <+: a := by
  obtain ⟨tl, htl⟩ := h
  have hs : s = (a ++ '\n' :: b).take s.length := by
    rw [← htl]
    exact (List.take_left s tl).symm
  by_cases hle : s.length ≤ a.length
  · rw [List.take_append_of_le_length hle] at hs
    rw [hs]
    exact List.take_prefix _ _
  · exfalso
    apply hnl
    have hidx : a.length < s.length := by omega
    have h1 : s[a.length]? = (a ++ '\n' :: b)[a.length]? := by
      conv_lhs => rw [hs]
      exact List.getElem?_take_of_lt hidx
    have h2 : (a ++ '\n' :: b)[a.length]? = some '\n' := by
      rw [List.getElem?_append_right (Nat.le_refl _), Nat.sub_self]
      simp
    exact List.getElem?_mem (h1.trans h2)

theorem matchAt_id_append_sep {s a b : Text} (hs : s ≠ []) (hnl : '\n' ∉ s)
    (h : matchAt id s (a ++ '\n' :: b) = true) :
    matchAt id s a = true ∧ s.length ≤ a.length := by
  have hpre : s <+: a := prefix_append_sep hnl ((matchAt_id_iff _ _).1 h)
  exact ⟨(matchAt_id_iff _ _).2 hpre, hpre.length_le⟩

theorem matchAt_id_extend {s a : Text} (x : Text) (h : matchAt id s a = true) :
    matchAt id s (a ++ x) = true := by
  rw [matchAt_id_iff]
  exact ((matchAt_id_iff _ _).1 h).trans (List.prefix_append a x)

theorem pyCountAux_append_sep (s : Text) (hs : s ≠ []) (hnl : '\n' ∉ s) :
    ∀ (n : Nat) (a : Text), a.length ≤ n → ∀ (b : Text),
      pyCountAux s (a ++ '\n' :: b) = pyCountAux s a + pyCountAux s b := by
  intro n
  induction n with
  | zero =>
    intro a ha b
    have ha0 : a = [] := List.length_eq_zero.1 (Nat.le_zero.1 ha)
    subst ha0
    rw [List.nil_append, pyCountAux, pyCountAux]
    have hmt : matchAt id s ('\n' :: b) = false := by
      apply matchAt_false_of_head hs hnl
    rw [hmt]
    simp
  | succ n ih =>
    intro a ha b
    match a with
    | [] =>
      rw [List.nil_append, pyCountAux, pyCountAux]
      have hmt : matchAt id s ('\n' :: b) = false :=
        matchAt_false_of_head hs hnl
      rw [hmt]
      simp
    | c :: arest =>
      have hshape : (c :: arest) ++ '\n' :: b = c :: (arest ++ '\n' :: b) := rfl
      rw [hshape, pyCountAux, pyCountAux]
      by_cases hmt : matchAt id s (c :: (arest ++ '\n' :: b)) = true
      · have hsep := matchAt_id_append_sep hs hnl
          (show matchAt id s ((c :: arest) ++ '\n' :: b) = true from hmt)
        rw [if_pos hmt, if_pos hsep.1]
        have hk : s.length - 1 ≤ arest.length := by
          have := hsep.2
          simp only [List.length_cons] at this
          omega
        have hdropA : (arest ++ '\n' :: b).drop (s.length - 1)
            = arest.drop (s.length - 1) ++ '\n' :: b := by
          rw [List.drop_append_eq_append_drop, Nat.sub_eq_zero_of_le hk, List.drop_zero]
        have hlen : (arest.drop (s.length - 1)).length ≤ n := by
          simp only [List.length_drop]
          simp only [List.length_cons] at ha
          omega
        rw [hdropA, ih (arest.drop (s.length - 1)) hlen b]
        omega
      · have hmt2 : matchAt id s (c :: arest) = false := by
          cases h2 : matchAt id s (c :: arest) with
          | false => rfl
          | true =>
            exfalso
            apply hmt
            have := matchAt_id_extend ('\n' :: b) h2
            simpa using this
        rw [if_neg hmt, hmt2]
        simp only [Bool.false_eq_true, if_false]
        have hlen : arest.length ≤ n := by
          simp only [List.length_cons] at ha
          omega
        exact ih arest hlen b

theorem replaceAllBy_append_sep (s r : Text) (hs : s ≠ []) (hnl : '\n' ∉ s) :
    ∀ (n : Nat) (a : Text), a.length ≤ n → ∀ (b : Text),
      replaceAllBy id s r (a ++ '\n' :: b)
        = replaceAllBy id s r a ++ '\n' :: replaceAllBy id s r b := by
  intro n
  induction n with
  | zero =>
    intro a ha b
    have ha0 : a = [] := List.length_eq_zero.1 (Nat.le_zero.1 ha)
    subst ha0
    rw [List.nil_append, replaceAllBy, replaceAllBy]
    have hmt : matchAt id s ('\n' :: b) = false :=
      matchAt_false_of_head hs hnl
    rw [hmt]
    simp
  | succ n ih =>
    intro a ha b
    match a with
    | [] =>
      rw [List.nil_append, replaceAllBy, replaceAllBy]
      have hmt : matchAt id s ('\n' :: b) = false :=
        matchAt_false_of_head hs hnl
      rw [hmt]
      simp
    | c :: arest =>
      have hshape : (c :: arest) ++ '\n' :: b = c :: (arest ++ '\n' :: b) := rfl
      rw [hshape, replaceAllBy, replaceAllBy]
      by_cases hmt : matchAt id s (c :: (arest ++ '\n' :: b)) = true
      · have hsep := matchAt_id_append_sep hs hnl
          (show matchAt id s ((c :: arest) ++ '\n' :: b) = true from hmt)
        rw [if_pos hmt, if_pos hsep.1]
        have hk : s.length - 1 ≤ arest.length := by
          have := hsep.2
          simp only [List.length_cons] at this
          omega
        have hdropA : (arest ++ '\n' :: b).drop (s.length - 1)
            = arest.drop (s.length - 1) ++ '\n' :: b := by
          rw [List.drop_append_eq_append_drop, Nat.sub_eq_zero_of_le hk, List.drop_zero]
        have hlen : (arest.drop (s.length - 1)).length ≤ n := by
          simp only [List.length_drop]
          simp only [List.length_cons] at ha
          omega
        rw [hdropA, ih (arest.drop (s.length - 1)) hlen b]
        simp
      · have hmt2 : matchAt id s (c :: arest) = false := by
          cases h2 : matchAt id s (c :: arest) with
          | false => rfl
          | true =>
            exfalso
            apply hmt
            have := matchAt_id_extend ('\n' :: b) h2
            simpa using this
        rw [if_neg hmt, hmt2]
        simp only [Bool.false_eq_true, if_false]
        have hlen : arest.length ≤ n := by
          simp only [List.length_cons] at ha
          omega
        rw [ih arest hlen b]
        simp

theorem pyCountAux_joinNL (s : Text) (hs : s ≠ []) (hnl : '\n' ∉ s) :
    ∀ (ts : List Text), pyCountAux s (joinNL ts) = (ts.map (pyCountAux s)).sum := by
  intro ts
  induction ts with
  | nil =>
    rw [joinNL, pyCountAux]
    simp
  | cons t rest ih =>
    match rest with
    | [] =>
      rw [joinNL]
      simp
    | t2 :: rest2 =>
      have hj : joinNL (t :: t2 :: rest2) = t ++ '\n' :: joinNL (t2 :: rest2) := rfl
      rw [hj, pyCountAux_append_sep s hs hnl t.length t (Nat.le_refl _) _, ih]
      simp

theorem replaceAllBy_joinNL (s r : Text) (hs : s ≠ []) (hnl : '\n' ∉ s) :
    ∀ (ts : List Text),
      replaceAllBy id s r (joinNL ts) = joinNL (ts.map (replaceAllBy id s r)) := by
  intro ts
  induction ts with
  | nil => rw [joinNL, replaceAllBy, List.map_nil, joinNL]
  | cons t rest ih =>
    match rest with
    | [] => rw [joinNL, List.map_cons, List.map_nil, joinNL]
    | t2 :: rest2 =>
      have hj : joinNL (t :: t2 :: rest2) = t ++ '\n' :: joinNL (t2 :: rest2) := rfl
      rw [hj, replaceAllBy_append_sep s r hs hnl t.length t (Nat.le_refl _) _, ih,
        List.map_cons, List.map_cons]
      rfl

/-! ## Per-paragraph specification of `_replace_text_in_paragraph`
(case-sensitive call) -/

theorem text_nil_of_runs_isEmpty {p : Para} (h : p.runs.isEmpty = true) : p.text = [] := by
  have h2 : p.runs = [] := by simpa using h
  simp [Para.text, h2]

theorem caseFold_true : caseFold true = id := by
  rfl

theorem caseFold_false : caseFold false = pyLower := by
  rfl

theorem rtip_unfold_cs (p : Para) (s r : Text) (pv : Bool) :
    replace_text_in_paragraph p s r pv true
      = if p.runs.isEmpty then some (p, 0)
        else if pyContains s p.text then
          (if pv then replace_with_formatting_preservation p s r true
           else if pyReplace s r p.text ≠ p.text then
             some ({ p with runs := [⟨pyReplace s r p.text, defaultFmt⟩] }, pyCount s p.text)
           else some (p, 0))
        else some (p, 0) := by
  rw [replace_text_in_paragraph]
  by_cases hruns : p.runs.isEmpty
  · rw [if_pos hruns, if_pos hruns]
  · rw [if_neg hruns, if_neg hruns]
    by_cases hcont : pyContains s p.text = true
    · rw [if_pos hcont, if_neg (by simp [hcont])]
      simp
    · rw [if_neg hcont, if_pos (by simp [hcont])]

theorem rtip_unfold_ci (p : Para) (s r : Text) (pv : Bool) :
    replace_text_in_paragraph p s r pv false
      = if p.runs.isEmpty then some (p, 0)
        else if pyContains (s.map pyLower) (p.text.map pyLower) then
          (if pv then replace_with_formatting_preservation p s r false
           else
             match reSub pyLower s r p.text with
             | none => none
             | some new_text =>
               if new_text ≠ p.text then
                 some ({ p with runs := [⟨new_text, defaultFmt⟩] },
                   (findMatches pyLower s p.text).length)
               else some (p, 0))
        else some (p, 0) := by
  rw [replace_text_in_paragraph]
  by_cases hruns : p.runs.isEmpty
  · rw [if_pos hruns, if_pos hruns]
  · rw [if_neg hruns, if_neg hruns]
    by_cases hcont : pyContains (s.map pyLower) (p.text.map pyLower) = true
    · rw [if_pos hcont, if_neg (by simp [hcont])]
      simp
    · rw [if_neg hcont, if_pos (by simp [hcont])]

theorem infix_charMap_of_contains {p : Para} {s : Text}
    (h : pyContains s p.text = true) :
    (s.map id) <:+: (((buildCharMap p.runs).map Prod.fst).map id) := by
  have h2 := (pyContains_iff s p.text).1 h
  rw [text_eq_charMap_fst] at h2
  simpa using h2

theorem rtip_nocc_count (p : Para) (s : Text) (hs : s ≠ [])
    (hnocc : ¬ s <:+: p.text) : pyCountAux s p.text = 0 := by
  have h0 : findMatchesAux id s p.text 0 = [] := by
    rw [findMatchesAux_nil_iff id hs p.text 0]
    simpa using hnocc
  rw [pyCountAux_eq_length s p.text.length p.text (Nat.le_refl _) 0, h0]
  rfl

theorem rtip_preserve_cs (p : Para) (s r : Text) (hs : s ≠ []) :
    ∃ p2, replace_text_in_paragraph p s r true true = some (p2, pyCountAux s p.text)
      ∧ p2.text = replaceAllBy id s r p.text := by
  rw [rtip_unfold_cs]
  by_cases hruns : p.runs.isEmpty
  · rw [if_pos hruns]
    have htext := text_nil_of_runs_isEmpty hruns
    refine ⟨p, ?_, ?_⟩
    · rw [htext, pyCountAux]
    · rw [htext, replaceAllBy]
  · rw [if_neg hruns]
    by_cases hcont : pyContains s p.text = true
    · rw [if_pos hcont, if_pos rfl]
      have hinf := infix_charMap_of_contains hcont
      have hne : findMatchesAux (caseFold true) s ((buildCharMap p.runs).map Prod.fst) 0 ≠ [] := by
        rw [caseFold_true]
        exact findMatchesAux_ne_nil_of_infix id hs hinf 0
      rw [rwfp_some p s r true hs hne]
      refine ⟨rebuild_paragraph_with_formatting p
        (replaceMapBy (caseFold true) s r (buildCharMap p.runs)), ?_, ?_⟩
      · have hcount : (findMatchesAux (caseFold true) s
            ((buildCharMap p.runs).map Prod.fst) 0).length = pyCountAux s p.text := by
          rw [caseFold_true, text_eq_charMap_fst]
          exact (pyCountAux_eq_length s _ _ (Nat.le_refl _) 0).symm
        rw [hcount]
      · rw [text_rebuild, caseFold_true, replaceMapBy_fst id s r (buildCharMap p.runs).length
          (buildCharMap p.runs) (Nat.le_refl _), text_eq_charMap_fst]
    · rw [if_neg hcont]
      have hnocc : ¬ s <:+: p.text := fun h2 => hcont ((pyContains_iff s p.text).2 h2)
      refine ⟨p, ?_, ?_⟩
      · rw [rtip_nocc_count p s hs hnocc]
      · rw [replaceAllBy_no_occ id s r hs p.text.length p.text (Nat.le_refl _)
          (by simpa using hnocc)]

theorem rtip_simple_cs (p : Para) (s r : Text) (hs : s ≠ []) (hr : r ≠ s) :
    ∃ p2, replace_text_in_paragraph p s r false true = some (p2, pyCountAux s p.text)
      ∧ p2.text = replaceAllBy id s r p.text := by
  rw [rtip_unfold_cs]
  by_cases hruns : p.runs.isEmpty
  · rw [if_pos hruns]
    have htext := text_nil_of_runs_isEmpty hruns
    refine ⟨p, ?_, ?_⟩
    · rw [htext, pyCountAux]
    · rw [htext, replaceAllBy]
  · rw [if_neg hruns]
    by_cases hcont : pyContains s p.text = true
    · rw [if_pos hcont, if_neg (by simp)]
      have hocc : s <:+: p.text := (pyContains_iff s p.text).1 hcont
      have hrepl : pyReplace s r p.text = replaceAllBy id s r p.text := by
        rw [pyReplace, if_neg (by simp [isEmpty_false_of_ne_nil hs])]
      have hne2 : pyReplace s r p.text ≠ p.text := by
        rw [hrepl]
        exact replaceAllBy_ne s r hs hr p.text hocc
      rw [if_pos hne2]
      refine ⟨{ p with runs := [⟨pyReplace s r p.text, defaultFmt⟩] }, ?_, ?_⟩
      · rw [pyCount, if_neg (by simp [isEmpty_false_of_ne_nil hs])]
      · rw [Para.text]
        simp only [List.map_cons, List.map_nil, List.flatten_cons, List.flatten_nil,
          List.append_nil]
        rw [hrepl]
    · rw [if_neg hcont]
      have hnocc : ¬ s <:+: p.text := fun h2 => hcont ((pyContains_iff s p.text).2 h2)
      refine ⟨p, ?_, ?_⟩
      · rw [rtip_nocc_count p s hs hnocc]
      · rw [replaceAllBy_no_occ id s r hs p.text.length p.text (Nat.le_refl _)
          (by simpa using hnocc)]

theorem rtip_simple_self (p : Para) (s : Text) (hs : s ≠ []) :
    replace_text_in_paragraph p s s false true = some (p, 0) := by
  rw [rtip_unfold_cs]
  by_cases hruns : p.runs.isEmpty
  · rw [if_pos hruns]
  · rw [if_neg hruns]
    by_cases hcont : pyContains s p.text = true
    · rw [if_pos hcont, if_neg (by simp)]
      have hrepl : pyReplace s s p.text = p.text := by
        rw [pyReplace, if_neg (by simp [isEmpty_false_of_ne_nil hs])]
        exact replaceAllBy_self s hs p.text.length p.text (Nat.le_refl _)
      rw [if_neg (by simp [hrepl])]
    · rw [if_neg hcont]

/-! ## Lifting per-paragraph facts through the document walk -/

theorem processList_none_iff {α β : Type} (f : α → Option (β × Nat)) :
    ∀ (l : List α), processList f l = none ↔ ∃ a ∈ l, f a = none := by
  intro l
  induction l with
  | nil => simp [processList]
  | cons a as ih =>
    cases hfa : f a with
    | none => simp [processList, hfa]
    | some bn =>
      obtain ⟨b, n⟩ := bn
      cases hrest : processList f as with
      | none =>
        simp only [processList, hfa, hrest]
        constructor
        · intro _
          obtain ⟨x, hx, hfx⟩ := ih.1 hrest
          exact ⟨x, List.mem_cons_of_mem a hx, hfx⟩
        · intro _
          trivial
      | some bsm =>
        obtain ⟨bs, m⟩ := bsm
        simp only [processList, hfa, hrest]
        constructor
        · intro h
          exact absurd h (by simp)
        · rintro ⟨x, hx, hfx⟩
          rcases List.mem_cons.1 hx with h1 | h2
          · subst h1
            rw [hfa] at hfx
            cases hfx
          · have h3 := ih.2 ⟨x, h2, hfx⟩
            rw [hrest] at h3
            cases h3

theorem processList_total {α β γ : Type} (f : α → Option (β × Nat)) (κ : α → Nat)
    (σ : α → γ) (τ : β → γ)
    (h : ∀ a, ∃ b, f a = some (b, κ a) ∧ τ b = σ a) :
    ∀ (l : List α), ∃ bs, processList f l = some (bs, (l.map κ).sum)
      ∧ bs.map τ = l.map σ := by
  intro l
  induction l with
  | nil =>
    refine ⟨[], ?_, ?_⟩
    · rw [processList]
      simp
    · simp
  | cons a as ih =>
    obtain ⟨b, hfa, hτ⟩ := h a
    obtain ⟨bs, hps, hmap⟩ := ih
    refine ⟨b :: bs, ?_, ?_⟩
    · rw [processList, hfa, hps]
      simp
    · simp [hmap, hτ]

theorem fart_spec (d : Doc) (s r : Text) (pv : Bool)
    (hpara : ∀ p : Para, ∃ p2, replace_text_in_paragraph p s r pv true
        = some (p2, pyCountAux s p.text) ∧ p2.text = replaceAllBy id s r p.text) :
    ∃ d2, find_and_replace_text d s r pv true
        = some (d2, ((visitedParas d).map (fun p => pyCountAux s p.text)).sum)
      ∧ (visitedParas d2).map Para.text
          = (visitedParas d).map (fun p => replaceAllBy id s r p.text) := by
  have h1 : ∀ ps : List Para, ∃ ps2, processParas s r pv true ps
      = some (ps2, (ps.map (fun p => pyCountAux s p.text)).sum)
      ∧ ps2.map Para.text = ps.map (fun p => replaceAllBy id s r p.text) :=
    processList_total (processPara s r pv true) (fun p => pyCountAux s p.text)
      (fun p => replaceAllBy id s r p.text) Para.text hpara
  have h2 : ∀ row : List (List Para), ∃ row2, processRow s r pv true row
      = some (row2, (row.map (fun cell => (cell.map (fun p => pyCountAux s p.text)).sum)).sum)
      ∧ row2.map (fun cell => cell.map Para.text)
          = row.map (fun cell => cell.map (fun p => replaceAllBy id s r p.text)) :=
    processList_total (processCell s r pv true)
      (fun cell => (cell.map (fun p => pyCountAux s p.text)).sum)
      (fun cell => cell.map (fun p => replaceAllBy id s r p.text))
      (fun cell2 => cell2.map Para.text) h1
  have h3 : ∀ t : Table, ∃ t2, processTable s r pv true t
      = some (t2, (t.map (fun row => (row.map (fun cell =>
          (cell.map (fun p => pyCountAux s p.text)).sum)).sum)).sum)
      ∧ t2.map (fun row => row.map (fun cell => cell.map Para.text))
          = t.map (fun row => row.map (fun cell =>
              cell.map (fun p => replaceAllBy id s r p.text))) :=
    processList_total (processRow s r pv true)
      (fun row => (row.map (fun cell => (cell.map (fun p => pyCountAux s p.text)).sum)).sum)
      (fun row => row.map (fun cell => cell.map (fun p => replaceAllBy id s r p.text)))
      (fun row2 => row2.map (fun cell => cell.map Para.text)) h2
  have h4 : ∀ ts : List Table, ∃ ts2, processTables s r pv true ts
      = some (ts2, (ts.map (fun t => (t.map (fun row => (row.map (fun cell =>
          (cell.map (fun p => pyCountAux s p.text)).sum)).sum)).sum)).sum)
      ∧ ts2.map (fun t => t.map (fun row => row.map (fun cell => cell.map Para.text)))
          = ts.map (fun t => t.map (fun row => row.map (fun cell =>
              cell.map (fun p => replaceAllBy id s r p.text)))) :=
    processList_total (processTable s r pv true)
      (fun t => (t.map (fun row => (row.map (fun cell =>
        (cell.map (fun p => pyCountAux s p.text)).sum)).sum)).sum)
      (fun t => t.map (fun row => row.map (fun cell =>
        cell.map (fun p => replaceAllBy id s r p.text))))
      (fun t2 => t2.map (fun row => row.map (fun cell => cell.map Para.text))) h3
  obtain ⟨ps2, hps, hpmap⟩ := h1 d.paragraphs
  obtain ⟨ts2, hts, htmap⟩ := h4 d.tables
  refine ⟨{ d with paragraphs := ps2, tables := ts2 }, ?_, ?_⟩
  · rw [find_and_replace_text, hps, hts]
    have hsum : ((visitedParas d).map (fun p => pyCountAux s p.text)).sum
        = (d.paragraphs.map (fun p => pyCountAux s p.text)).sum
          + (d.tables.map (fun t => (t.map (fun row => (row.map (fun cell =>
              (cell.map (fun p => pyCountAux s p.text)).sum)).sum)).sum)).sum := by
      rw [visitedParas, List.map_append, List.sum_append]
      congr 1
      simp [tableParas, List.map_flatten, List.sum_flatten, List.map_map, Function.comp_def]
    rw [hsum]
  · have e : ∀ (ts' : List Table) (g : Para → Text),
        (((ts'.map tableParas).flatten).map g)
          = ((ts'.map (fun t => t.map (fun row => row.map (fun cell =>
              cell.map g)))).map (fun t => (t.map (fun row => row.flatten)).flatten)).flatten := by
      intro ts' g
      simp [tableParas, List.map_flatten, List.map_map, Function.comp_def]
    rw [visitedParas, visitedParas, List.map_append, List.map_append, hpmap]
    congr 1
    show (((ts2.map tableParas).flatten).map Para.text) = _
    rw [e ts2 Para.text, htmap, ← e d.tables (fun p => replaceAllBy id s r p.text)]

theorem processList_id_zero {α : Type} (f : α → Option (α × Nat))
    (h : ∀ a, f a = some (a, 0)) : ∀ l, processList f l = some (l, 0) := by
  intro l
  induction l with
  | nil => rw [processList]
  | cons a as ih => rw [processList, h a, ih]

theorem docFullText_count (d : Doc) (s : Text) (hs : s ≠ []) (hnl : '\n' ∉ s) :
    pyCount s (docFullText d)
      = ((visitedParas d).map (fun p => pyCountAux s p.text)).sum := by
  rw [pyCount, if_neg (by simp [isEmpty_false_of_ne_nil hs]), docFullText,
    pyCountAux_joinNL s hs hnl, List.map_map]
  rfl

theorem docFullText_subst {d d2 : Doc} {s r : Text} (hs : s ≠ []) (hnl : '\n' ∉ s)
    (h : (visitedParas d2).map Para.text
      = (visitedParas d).map (fun p => replaceAllBy id s r p.text)) :
    docFullText d2 = replaceAllBy id s r (docFullText d) := by
  rw [docFullText, docFullText, h, replaceAllBy_joinNL s r hs hnl]
  congr 1
  rw [List.map_map]
  rfl

/-- C1 (amended), the document-level statement: with a nonempty,
newline-free search string and `case_sensitive=True`,
`find_and_replace_text` returns the number of non-overlapping
occurrences of the search string in the flattened text of all visited
paragraphs, and the resulting flattened text is the left-to-right
substitution — unconditionally for `preserve_formatting=True`, and for
`preserve_formatting=False` exactly when the replacement differs from
the search string (otherwise that path returns 0 and changes nothing). -/
theorem find_and_replace_text_count_spec (d : Doc) (s r : Text) (hs : s ≠ [])
    (hnl : '\n' ∉ s) :
    (∃ d1, find_and_replace_text d s r true true = some (d1, pyCount s (docFullText d))
        ∧ docFullText d1 = replaceAllBy id s r (docFullText d))
    ∧ (r ≠ s → ∃ d2, find_and_replace_text d s r false true
          = some (d2, pyCount s (docFullText d))
        ∧ docFullText d2 = replaceAllBy id s r (docFullText d))
    ∧ (r = s → find_and_replace_text d s r false true = some (d, 0)) := by
  refine ⟨?_, ?_, ?_⟩
  · obtain ⟨d1, hd1, hmap⟩ := fart_spec d s r true (fun p => rtip_preserve_cs p s r hs)
    refine ⟨d1, ?_, docFullText_subst hs hnl hmap⟩
    rw [hd1, docFullText_count d s hs hnl]
  · intro hr
    obtain ⟨d2, hd2, hmap⟩ := fart_spec d s r false (fun p => rtip_simple_cs p s r hs hr)
    refine ⟨d2, ?_, docFullText_subst hs hnl hmap⟩
    rw [hd2, docFullText_count d s hs hnl]
  · intro hr
    subst hr
    rw [find_and_replace_text]
    have h1 : processParas r r false true d.paragraphs = some (d.paragraphs, 0) :=
      processList_id_zero _ (fun p => rtip_simple_self p r hs) d.paragraphs
    have h2 : processTables r r false true d.tables = some (d.tables, 0) := by
      apply processList_id_zero
      intro t
      apply processList_id_zero
      intro row
      apply processList_id_zero
      intro cell
      apply processList_id_zero
      intro q
      exact rtip_simple_self q r hs
    rw [h1, h2]

/-! ## Reconstruction: rebuilding an unchanged map restores minimal runs -/

theorem rebuildAux_consume (f : Fmt) :
    ∀ (cs : Text) (cur : Text) (tail : List CharFmt),
      rebuildAux cur f (cs.map (fun c => (c, f)) ++ tail) = rebuildAux (cur ++ cs) f tail := by
  intro cs
  induction cs with
  | nil =>
    intro cur tail
    simp
  | cons c cs2 ih =>
    intro cur tail
    simp only [List.map_cons, List.cons_append, rebuildAux, List.append_eq]
    rw [if_pos trivial, ih (cur ++ [c]) tail]
    simp

theorem rebuildAux_reconstruct :
    ∀ (runs : List Run) (cur : Text) (f : Fmt), cur ≠ [] → minimalFrom f runs = true →
      rebuildAux cur f (buildCharMap runs)
        = (cur, f) :: runs.map (fun rn => (rn.text, rn.fmt)) := by
  intro runs
  induction runs with
  | nil =>
    intro cur f hcur _
    simp [buildCharMap, rebuildAux, isEmpty_false_of_ne_nil hcur]
  | cons rn rest ih =>
    intro cur f hcur hmin
    rw [minimalFrom, Bool.and_eq_true, Bool.and_eq_true] at hmin
    obtain ⟨⟨h1, h2⟩, h3⟩ := hmin
    have hfmt : rn.fmt ≠ f := by simpa using h2
    have hbuild : buildCharMap (rn :: rest)
        = rn.text.map (fun c => (c, rn.fmt)) ++ buildCharMap rest := by
      simp [buildCharMap]
    rw [hbuild]
    cases htext : rn.text with
    | nil =>
      rw [htext] at h1
      simp at h1
    | cons c0 t0 =>
      simp only [List.map_cons, List.cons_append, rebuildAux, List.append_eq]
      rw [if_neg (show ¬(((c0, rn.fmt) : CharFmt).2 = f) from hfmt),
        if_neg (show ¬(List.isEmpty cur = true) from by simpa using hcur)]
      rw [rebuildAux_consume rn.fmt t0 [c0] (buildCharMap rest)]
      rw [List.singleton_append, ih (c0 :: t0) rn.fmt (List.cons_ne_nil _ _) h3, htext]

theorem runs_nonempty_charMap {rn : Run} {rest : List Run} (h1 : rn.text ≠ []) :
    buildCharMap (rn :: rest) ≠ [] := by
  have hbuild : buildCharMap (rn :: rest)
      = rn.text.map (fun c => (c, rn.fmt)) ++ buildCharMap rest := by
    simp [buildCharMap]
  rw [hbuild]
  cases htext : rn.text with
  | nil => exact absurd htext h1
  | cons c0 t0 => simp

theorem rebuild_reconstruct (p : Para) (hmin : minimalRuns p.runs = true)
    (hnorm : ∀ rn ∈ p.runs, Fmt.normal rn.fmt) :
    rebuild_paragraph_with_formatting p (buildCharMap p.runs) = p := by
  obtain ⟨runs, st, li, fi, sa, ls⟩ := p
  simp only [] at hmin hnorm ⊢
  cases runs with
  | nil => rfl
  | cons rn rest =>
    rw [minimalRuns, Bool.and_eq_true] at hmin
    obtain ⟨h1, h3⟩ := hmin
    have h1b : rn.text ≠ [] := by simpa using h1
    cases htext : rn.text with
    | nil => exact absurd htext h1b
    | cons c0 t0 =>
      have hshape : buildCharMap (rn :: rest)
          = (c0, rn.fmt) :: (t0.map (fun c => (c, rn.fmt)) ++ buildCharMap rest) := by
        simp [buildCharMap, htext]
      rw [hshape, rebuild_paragraph_with_formatting]
      have hstep : rebuildAux [] (c0, rn.fmt).2
            ((c0, rn.fmt) :: (t0.map (fun c => (c, rn.fmt)) ++ buildCharMap rest))
          = (c0 :: t0, rn.fmt) :: rest.map (fun q => (q.text, q.fmt)) := by
        rw [rebuildAux, if_pos rfl]
        have hc : (([] : Text) ++ [c0]) = [c0] := rfl
        rw [hc, rebuildAux_consume rn.fmt t0 [c0] (buildCharMap rest)]
        cases rest with
        | nil =>
          have hb : buildCharMap ([] : List Run) = [] := rfl
          rw [hb, rebuildAux]
          simp
        | cons q qs =>
          rw [List.singleton_append,
            rebuildAux_reconstruct (q :: qs) (c0 :: t0) rn.fmt (List.cons_ne_nil _ _) h3]
      rw [hstep]
      have hhead : rn.fmt.normal := hnorm rn (List.mem_cons_self _ _)
      have hmap : ((c0 :: t0, rn.fmt) :: rest.map (fun q => (q.text, q.fmt))).map
            (fun tf => (⟨tf.1, apply_run_formatting tf.2 defaultFmt⟩ : Run))
          = rn :: rest := by
        rw [List.map_cons, List.map_map]
        congr 1
        · rw [show apply_run_formatting rn.fmt defaultFmt = rn.fmt from hhead, ← htext]
        · have hpt : ∀ q ∈ rest,
              ((fun tf => (⟨tf.1, apply_run_formatting tf.2 defaultFmt⟩ : Run))
                ∘ (fun q => (q.text, q.fmt))) q = id q := by
            intro q hq
            have hn := hnorm q (List.mem_cons_of_mem rn hq)
            show (⟨q.text, apply_run_formatting q.fmt defaultFmt⟩ : Run) = q
            rw [show apply_run_formatting q.fmt defaultFmt = q.fmt from hn]
          rw [List.map_congr_left hpt, List.map_id]
      rw [hmap]

/-- C4 (amended): replacing a nonempty string with itself in the
formatting-preserving, case-sensitive path returns the paragraph
*unchanged* (identical runs, hence identical run boundaries and
per-character formatting) provided the paragraph's runs are in coalesced
normal form, every run's formatting survives the rebuild's
truthiness-based re-application, and every match lies on uniformly
formatted characters; the count is the number of matches.  (Without
these provisos the operation can merge runs and drop formatting — see
the counterexample.) -/
theorem rtip_self_preserving (p : Para) (s : Text) (hs : s ≠ [])
    (hmin : minimalRuns p.runs = true) (hnorm : ∀ rn ∈ p.runs, Fmt.normal rn.fmt)
    (huni : matchesUniform s (buildCharMap p.runs) = true) :
    replace_text_in_paragraph p s s true true
      = some (p, (findMatchesAux id s p.text 0).length) := by
  rw [rtip_unfold_cs]
  by_cases hruns : p.runs.isEmpty
  · rw [if_pos hruns]
    have htext := text_nil_of_runs_isEmpty hruns
    rw [htext, findMatchesAux]
    rfl
  · rw [if_neg hruns]
    by_cases hcont : pyContains s p.text = true
    · rw [if_pos hcont, if_pos rfl]
      have hinf := infix_charMap_of_contains hcont
      have hne : findMatchesAux (caseFold true) s
          ((buildCharMap p.runs).map Prod.fst) 0 ≠ [] := by
        rw [caseFold_true]
        exact findMatchesAux_ne_nil_of_infix id hs hinf 0
      rw [rwfp_some p s s true hs hne, caseFold_true,
        replaceMapBy_self s hs (buildCharMap p.runs).length _ (Nat.le_refl _) huni,
        rebuild_reconstruct p hmin hnorm, text_eq_charMap_fst]
    · rw [if_neg hcont]
      have hnocc : ¬ s <:+: p.text := fun h2 => hcont ((pyContains_iff s p.text).2 h2)
      have h0 : findMatchesAux id s p.text 0 = [] := by
        rw [findMatchesAux_nil_iff id hs p.text 0]
        simpa using hnocc
      rw [h0]
      rfl

/-! ## Case-folding facts (C9) -/

theorem charToNat_ofNat_small {m : Nat} (h : m < 55296) : (Char.ofNat m).toNat = m := by
  unfold Char.ofNat
  rw [dif_pos (Or.inl h)]
  rfl

theorem pyLower_idem (c : Char) : pyLower (pyLower c) = pyLower c := by
  by_cases h : 65 ≤ c.toNat ∧ c.toNat ≤ 90
  · have h1 : pyLower c = Char.ofNat (c.toNat + 32) := by rw [pyLower, if_pos h]
    have htoNat : (Char.ofNat (c.toNat + 32)).toNat = c.toNat + 32 :=
      charToNat_ofNat_small (by omega)
    rw [h1, pyLower, if_neg (by rw [htoNat]; omega)]
  · have h1 : pyLower c = c := by rw [pyLower, if_neg h]
    rw [h1]
    exact h1

theorem map_pyLower_idem (t : Text) : (t.map pyLower).map pyLower = t.map pyLower := by
  rw [List.map_map]
  apply List.map_congr_left
  intro c _
  exact pyLower_idem c

theorem categorize_placeholder_lower (k : Text) :
    categorize_placeholder k = categorize_placeholder (k.map pyLower) := by
  rw [categorize_placeholder, categorize_placeholder, map_pyLower_idem]

theorem lookupAssoc_isSome_iff (m : List (Text × Text)) (k : Text) :
    (lookupAssoc m k).isSome = true ↔ k ∈ m.map Prod.fst := by
  induction m with
  | nil => simp [lookupAssoc]
  | cons ab rest ih =>
    obtain ⟨a, b⟩ := ab
    rw [lookupAssoc]
    by_cases hak : a = k
    · subst hak
      simp
    · rw [if_neg hak]
      simp only [List.map_cons, List.mem_cons]
      rw [ih]
      constructor
      · intro h2
        exact Or.inr h2
      · rintro (h2 | h2)
        · exact absurd h2.symm hak
        · exact h2

theorem matchAt_pyLower_lower (s t : Text) :
    matchAt pyLower (s.map pyLower) t = matchAt pyLower s t := by
  rw [matchAt, matchAt, map_pyLower_idem]

theorem findMatchesAux_pyLower_lower (s : Text) :
    ∀ (n : Nat) (t : Text), t.length ≤ n → ∀ i,
      findMatchesAux pyLower (s.map pyLower) t i = findMatchesAux pyLower s t i := by
  intro n
  induction n with
  | zero =>
    intro t ht i
    have ht0 : t = [] := List.length_eq_zero.1 (Nat.le_zero.1 ht)
    subst ht0
    rw [findMatchesAux, findMatchesAux]
  | succ n ih =>
    intro t ht i
    match t with
    | [] => rw [findMatchesAux, findMatchesAux]
    | c :: rest =>
      rw [findMatchesAux, findMatchesAux, matchAt_pyLower_lower]
      by_cases hmt : matchAt pyLower s (c :: rest) = true
      · rw [if_pos hmt, if_pos hmt]
        have hlenmap : (s.map pyLower).length = s.length := by simp
        rw [hlenmap]
        have hd : (rest.drop (s.length - 1)).length ≤ n := by
          simp only [List.length_drop]
          simp only [List.length_cons] at ht
          omega
        rw [ih (rest.drop (s.length - 1)) hd (i + s.length)]
      · rw [if_neg hmt, if_neg hmt]
        have hd : rest.length ≤ n := by
          simp only [List.length_cons] at ht
          omega
        rw [ih rest hd (i + 1)]

theorem rwfp_pyLower_lower (p : Para) (s r : Text) :
    replace_with_formatting_preservation p (s.map pyLower) r false
      = replace_with_formatting_preservation p s r false := by
  rw [replace_with_formatting_preservation, replace_with_formatting_preservation]
  have hemp : (s.map pyLower).isEmpty = s.isEmpty := by
    cases s <;> rfl
  have hfm : findMatches (caseFold false) (s.map pyLower)
      ((buildCharMap p.runs).map Prod.fst)
      = findMatches (caseFold false) s ((buildCharMap p.runs).map Prod.fst) := by
    rw [findMatches, findMatches, hemp, caseFold_false]
    by_cases hse : s.isEmpty
    · rw [if_pos hse, if_pos hse]
    · rw [if_neg hse, if_neg hse,
        findMatchesAux_pyLower_lower s ((buildCharMap p.runs).map Prod.fst).length _
          (Nat.le_refl _) 0]
  rw [hfm]

theorem rtip_pyLower_lower (p : Para) (s r : Text) :
    replace_text_in_paragraph p (s.map pyLower) r true false
      = replace_text_in_paragraph p s r true false := by
  rw [rtip_unfold_ci, rtip_unfold_ci, map_pyLower_idem, rwfp_pyLower_lower]
  simp

theorem fart_pyLower_lower (d : Doc) (s r : Text) :
    find_and_replace_text d (s.map pyLower) r true false
      = find_and_replace_text d s r true false := by
  have hcong : ∀ {α : Type} (f g : α → Option (α × Nat)) (l : List α),
      (∀ a, f a = g a) → processList f l = processList g l := by
    intro α f g l h
    induction l with
    | nil => rfl
    | cons a as ih => rw [processList, processList, h a, ih]
  have h1 : processParas (s.map pyLower) r true false d.paragraphs
      = processParas s r true false d.paragraphs :=
    hcong _ _ _ (fun p => rtip_pyLower_lower p s r)
  have h2 : processTables (s.map pyLower) r true false d.tables
      = processTables s r true false d.tables :=
    hcong _ _ _ (fun t => hcong _ _ t (fun row => hcong _ _ row
      (fun cell => hcong _ _ cell (fun p => rtip_pyLower_lower p s r))))
  rw [find_and_replace_text, find_and_replace_text, h1, h2]

/-! ## Path resolution matches the spec description (C7) -/

theorem foldl_resolveSpecStep_none (keys : List Text) :
    keys.foldl resolveSpecStep none = none := by
  induction keys with
  | nil => rfl
  | cons k rest ih =>
    rw [List.foldl_cons]
    exact ih

theorem getNestedAux_eq_foldl :
    ∀ (keys : List Text) (v : JVal),
      getNestedAux v keys = keys.foldl resolveSpecStep (some v) := by
  intro keys
  induction keys with
  | nil => intro v; rfl
  | cons key rest ih =>
    intro v
    rw [List.foldl_cons]
    by_cases hdig : isDigitStr key = true
    · match v with
      | .str t => simp [getNestedAux, resolveSpecStep, hdig, foldl_resolveSpecStep_none]
      | .num n => simp [getNestedAux, resolveSpecStep, hdig, foldl_resolveSpecStep_none]
      | .bool b => simp [getNestedAux, resolveSpecStep, hdig, foldl_resolveSpecStep_none]
      | .null => simp [getNestedAux, resolveSpecStep, hdig, foldl_resolveSpecStep_none]
      | .obj kvs => simp [getNestedAux, resolveSpecStep, hdig, foldl_resolveSpecStep_none]
      | .arr xs =>
        by_cases hlt : textToNat key < xs.length
        · simp only [getNestedAux, resolveSpecStep, hdig, if_true, dif_pos hlt]
          rw [ih, List.getElem?_eq_getElem hlt, List.get_eq_getElem]
        · simp only [getNestedAux, resolveSpecStep, hdig, if_true, dif_neg hlt]
          rw [List.getElem?_eq_none (by omega), foldl_resolveSpecStep_none]
    · match v with
      | .str t => simp [getNestedAux, resolveSpecStep, hdig, foldl_resolveSpecStep_none]
      | .num n => simp [getNestedAux, resolveSpecStep, hdig, foldl_resolveSpecStep_none]
      | .bool b => simp [getNestedAux, resolveSpecStep, hdig, foldl_resolveSpecStep_none]
      | .null => simp [getNestedAux, resolveSpecStep, hdig, foldl_resolveSpecStep_none]
      | .arr xs => simp [getNestedAux, resolveSpecStep, hdig, foldl_resolveSpecStep_none]
      | .obj kvs =>
        match hlook : lookupJson kvs key with
        | some v2 =>
          simp only [getNestedAux, resolveSpecStep, hdig, if_false, hlook]
          exact ih v2
        | none =>
          simp only [getNestedAux, resolveSpecStep, hdig, if_false, hlook,
            Bool.false_eq_true, ite_false]
          rw [foldl_resolveSpecStep_none]

/-! ## A failing paragraph aborts the whole pass (C8) -/

/-- C8 (amended): the whole `find_and_replace_text` pass fails exactly
when processing some visited paragraph (top-level or table-cell) fails:
one failing paragraph aborts the entire document pass — failures are
re-raised out of the single surrounding `try`, not collected per
paragraph. -/
theorem fart_none_iff (d : Doc) (s r : Text) (pv cs : Bool) :
    find_and_replace_text d s r pv cs = none
      ↔ ∃ p ∈ visitedParas d, replace_text_in_paragraph p s r pv cs = none := by
  have htab : processTables s r pv cs d.tables = none
      ↔ ∃ p ∈ (d.tables.map tableParas).flatten,
          replace_text_in_paragraph p s r pv cs = none := by
    rw [processList_none_iff]
    constructor
    · rintro ⟨t, ht, htn⟩
      obtain ⟨row, hrow, hrown⟩ := (processList_none_iff _ _).1 htn
      obtain ⟨cell, hcell, hcelln⟩ := (processList_none_iff _ _).1 hrown
      obtain ⟨p, hp, hpn⟩ := (processList_none_iff _ _).1 hcelln
      refine ⟨p, ?_, hpn⟩
      rw [List.mem_flatten]
      refine ⟨tableParas t, List.mem_map_of_mem tableParas ht, ?_⟩
      rw [tableParas, List.mem_flatten]
      exact ⟨row.flatten, List.mem_map_of_mem _ hrow, List.mem_flatten.2 ⟨cell, hcell, hp⟩⟩
    · rintro ⟨p, hp, hpn⟩
      rw [List.mem_flatten] at hp
      obtain ⟨l, hl, hpl⟩ := hp
      obtain ⟨t, ht, rfl⟩ := List.mem_map.1 hl
      rw [tableParas, List.mem_flatten] at hpl
      obtain ⟨l2, hl2, hpl2⟩ := hpl
      obtain ⟨row, hrow, rfl⟩ := List.mem_map.1 hl2
      obtain ⟨cell, hcell, hpcell⟩ := List.mem_flatten.1 hpl2
      refine ⟨t, ht, ?_⟩
      rw [processList_none_iff]
      refine ⟨row, hrow, ?_⟩
      rw [processList_none_iff]
      refine ⟨cell, hcell, ?_⟩
      rw [processList_none_iff]
      exact ⟨p, hpcell, hpn⟩
  rw [find_and_replace_text]
  constructor
  · intro h
    cases hp : processParas s r pv cs d.paragraphs with
    | none =>
      obtain ⟨p, hmem, hpn⟩ := (processList_none_iff _ _).1 hp
      exact ⟨p, List.mem_append_left _ hmem, hpn⟩
    | some pr =>
      rw [hp] at h
      obtain ⟨ps, n1⟩ := pr
      cases ht : processTables s r pv cs d.tables with
      | none =>
        obtain ⟨p, hmem, hpn⟩ := htab.1 ht
        exact ⟨p, List.mem_append_right _ hmem, hpn⟩
      | some ts =>
        rw [ht] at h
        cases h
  · rintro ⟨p, hmem, hpn⟩
    rcases List.mem_append.1 hmem with hmem2 | hmem2
    · have hp2 : processParas s r pv cs d.paragraphs = none :=
        (processList_none_iff _ _).2 ⟨p, hmem2, hpn⟩
      rw [hp2]
    · cases hp : processParas s r pv cs d.paragraphs with
      | none => rfl
      | some pr =>
        obtain ⟨ps, n1⟩ := pr
        rw [htab.2 ⟨p, hmem2, hpn⟩]

/-! ## Bullet expansion lemmas (C5) -/

theorem newBulletPara_text (hs : Bool) (tmpl : Option Fmt) (item : Text) :
    (newBulletPara hs tmpl item).text = '•' :: ' ' :: item := by
  cases tmpl <;>
    simp [newBulletPara, apply_bullet_formatting, mkBulletRun, emptyPara, Para.text]

theorem newBulletPara_layout (hs : Bool) (tmpl : Option Fmt) (item : Text) :
    (newBulletPara hs tmpl item).leftIndent = some 457200 ∧
    (newBulletPara hs tmpl item).firstLineIndent = some (-228600) ∧
    (newBulletPara hs tmpl item).spaceAfter = some 38100 ∧
    (newBulletPara hs tmpl item).lineSpacing = some 115 := by
  cases tmpl <;> simp [newBulletPara, apply_bullet_formatting]

theorem bulletLoop_nomatch (hs : Bool) (tmpl : Option Fmt) (s : Text) (its : List Text)
    (l : List Para) (h : ∀ q ∈ l, pyContains s q.text = false) :
    bulletLoop hs tmpl s its l = some (l, 0) := by
  induction l with
  | nil => rfl
  | cons p rest ih =>
    rw [bulletLoop, h p (List.mem_cons_self _ _)]
    simp only [Bool.false_eq_true, if_false]
    rw [ih (fun q hq => h q (List.mem_cons_of_mem _ hq))]

theorem bulletLoop_found (hs : Bool) (tmpl : Option Fmt) (s : Text) (its : List Text)
    (p : Para) (post : List Para) (p2 : Para) (count : Nat)
    (hc : pyContains s p.text = true)
    (hr : replace_with_formatting_preservation p s
        ('•' :: ' ' :: its.headD []) false = some (p2, count))
    (hpos : 0 < count) :
    ∀ pre : List Para, (∀ q ∈ pre, pyContains s q.text = false) →
      bulletLoop hs tmpl s its (pre ++ p :: post) =
        some (pre ++ apply_bullet_formatting hs p2 ::
          ((its.drop 1).map (newBulletPara hs tmpl) ++ post), count) := by
  intro pre
  induction pre with
  | nil =>
    intro _
    rw [List.nil_append, bulletLoop, hc]
    simp only [if_true]
    rw [hr]
    simp only [hpos, if_true, List.nil_append]
  | cons q pre ih =>
    intro h
    rw [List.cons_append, bulletLoop, h q (List.mem_cons_self _ _)]
    simp only [Bool.false_eq_true, if_false]
    rw [ih (fun x hx => h x (List.mem_cons_of_mem _ hx)), List.cons_append]

/-! ## Placeholder scan lemmas (C6) -/

theorem findTokens_sound (t : Text) :
    ∀ body ∈ findTokens t, body ≠ [] ∧ (∀ c ∈ body, c ≠ '}') ∧
      ('{' :: '{' :: (body ++ '}' :: '}' :: [])) <:+: t := by
  induction t using findTokens.induct with
  | case1 => intro body hmem; exact absurd hmem (by rw [findTokens]; exact List.not_mem_nil _)
  | case2 c => intro body hmem; exact absurd hmem (by rw [findTokens]; exact List.not_mem_nil _)
  | case3 c1 c2 rest2 hbr body hne ih =>
    intro b hmem
    rw [findTokens, if_pos hbr, if_pos hne] at hmem
    rcases List.mem_cons.1 hmem with hb | hmem2
    · rw [Bool.and_eq_true] at hne
      obtain ⟨hne1, htk⟩ := hne
      have hne1b : (!b.isEmpty) = true := by rw [hb]; exact hne1
      have htk2 : List.take 2 (List.drop b.length rest2) = ['}', '}'] := by
        rw [hb]; exact of_decide_eq_true htk
      have hpre : b <+: rest2 := by rw [hb]; exact List.takeWhile_prefix _
      refine ⟨?_, ?_, ?_⟩
      · intro hnil
        rw [hnil] at hne1b
        simp at hne1b
      · intro c hc
        rw [hb] at hc
        have hmemtk := List.mem_takeWhile_imp hc
        simpa using hmemtk
      · have hpre2 : b = rest2.take b.length := List.prefix_iff_eq_take.1 hpre
        have h2 : rest2 = b ++ '}' :: '}' :: (rest2.drop b.length).drop 2 := by
          conv_lhs => rw [← List.take_append_drop b.length rest2]
          rw [← hpre2]
          congr 1
          conv_lhs => rw [← List.take_append_drop 2 (rest2.drop b.length)]
          rw [htk2]
          rfl
        refine List.IsPrefix.isInfix ⟨(rest2.drop b.length).drop 2, ?_⟩
        rw [hbr.1, hbr.2]
        simp only [List.cons_append, List.append_assoc, List.nil_append]
        rw [← h2]
    · obtain ⟨hb1, hb2, hb3⟩ := ih b hmem2
      refine ⟨hb1, hb2, hb3.trans ?_⟩
      exact (((List.drop_suffix _ _).trans
        ((List.suffix_cons c2 rest2).trans (List.suffix_cons c1 _))).isInfix)
  | case4 c1 c2 rest2 hbr body hne ih =>
    intro b hmem
    rw [findTokens, if_pos hbr, if_neg hne] at hmem
    obtain ⟨hb1, hb2, hb3⟩ := ih b hmem
    exact ⟨hb1, hb2, hb3.trans ((List.suffix_cons c1 _).isInfix)⟩
  | case5 c1 c2 rest2 hbr ih =>
    intro b hmem
    rw [findTokens, if_neg hbr] at hmem
    obtain ⟨hb1, hb2, hb3⟩ := ih b hmem
    exact ⟨hb1, hb2, hb3.trans ((List.suffix_cons c1 _).isInfix)⟩

/-! # The claims -/

/-- C2 (amended): with formatting preservation and at least one match,
the rightmost-first splicing of the source equals the left-to-right
substitution in which every replacement character is tagged with the
formatting of the first character of its match (`replaceMapBy`); the
rebuilt paragraph's characters then carry that formatting re-applied
onto a default run by `_apply_run_formatting`'s truthiness rules (a
`None` check for bold/italic/underline but a truthiness check for font
name and size, so falsy values such as size 0 are dropped — the
characters do not in general carry *exactly* the match's formatting). -/
theorem rwfp_formatting_spec (p : Para) (s r : Text) (cs : Bool) (hs : s ≠ [])
    (hne : findMatchesAux (caseFold cs) s ((buildCharMap p.runs).map Prod.fst) 0 ≠ []) :
    replace_with_formatting_preservation p s r cs
        = some (rebuild_paragraph_with_formatting p
              (replaceMapBy (caseFold cs) s r (buildCharMap p.runs)),
            (findMatchesAux (caseFold cs) s ((buildCharMap p.runs).map Prod.fst) 0).length)
      ∧ buildCharMap (rebuild_paragraph_with_formatting p
            (replaceMapBy (caseFold cs) s r (buildCharMap p.runs))).runs
          = (replaceMapBy (caseFold cs) s r (buildCharMap p.runs)).map
              (fun cf => (cf.1, apply_run_formatting cf.2 defaultFmt))
      ∧ (rebuild_paragraph_with_formatting p
            (replaceMapBy (caseFold cs) s r (buildCharMap p.runs))).text
          = (replaceMapBy (caseFold cs) s r (buildCharMap p.runs)).map Prod.fst :=
  ⟨rwfp_some p s r cs hs hne, buildCharMap_rebuild p _, text_rebuild p _⟩

/-- C5 (amended): when the item list is nonempty and some top-level
paragraph contains the token (case-sensitively), the *first* such
paragraph has the token replaced by `"• " + items[0]` through the
formatting-preserving path (invoked case-insensitively), that paragraph
is bullet-formatted, the remaining items become fresh bullet paragraphs
(text `"• " + item`, in order, carrying the bullet layout attributes)
inserted immediately after it, and the returned count is the number of
token occurrences replaced in that one paragraph — not `len(items)`. -/
theorem replace_with_bullet_points_spec (d : Doc) (s : Text) (its : List Text) (pv : Bool)
    (pre post : List Para) (p p2 : Para) (count : Nat)
    (hd : d.paragraphs = pre ++ p :: post)
    (hpre : ∀ q ∈ pre, pyContains s q.text = false)
    (hc : pyContains s p.text = true)
    (hr : replace_with_formatting_preservation p s ('•' :: ' ' :: its.headD []) false
        = some (p2, count))
    (hpos : 0 < count) (hits : its ≠ []) :
    replace_with_bullet_points d s its pv
        = some ({ d with paragraphs := pre
              ++ apply_bullet_formatting d.hasListParagraphStyle p2
              :: ((its.drop 1).map
                    (newBulletPara d.hasListParagraphStyle
                      (find_template_bullet_formatting d)) ++ post) },
            count)
      ∧ ((its.drop 1).map
            (newBulletPara d.hasListParagraphStyle (find_template_bullet_formatting d))).map
          Para.text = (its.drop 1).map (fun it => '•' :: ' ' :: it)
      ∧ ∀ q ∈ (its.drop 1).map
            (newBulletPara d.hasListParagraphStyle (find_template_bullet_formatting d)),
          q.leftIndent = some 457200 ∧ q.firstLineIndent = some (-228600)
            ∧ q.spaceAfter = some 38100 ∧ q.lineSpacing = some 115 := by
  refine ⟨?_, ?_, ?_⟩
  · rw [replace_with_bullet_points]
    simp only [isEmpty_false_of_ne_nil hits, Bool.false_eq_true, if_false]
    rw [hd, bulletLoop_found d.hasListParagraphStyle (find_template_bullet_formatting d)
      s its p post p2 count hc hr hpos pre hpre]
  · rw [List.map_map]
    apply List.map_congr_left
    intro it _
    exact newBulletPara_text _ _ it
  · intro q hq
    obtain ⟨it, _, rfl⟩ := List.mem_map.1 hq
    exact newBulletPara_layout _ _ it

/-- C6 (amended): the placeholder scan reads only the flattened text of
the *top-level* paragraphs — table cells are invisible to it (the token
list is unchanged when the tables are removed) — and every discovered
body is a nonempty, `}`-free string whose `{{...}}` form occurs in that
text, in scan order with duplicates retained (each occurrence, not each
distinct body, is processed). -/
theorem discoveredPlaceholders_spec (d : Doc) :
    discoveredPlaceholders d
        = discoveredPlaceholders
            { paragraphs := d.paragraphs, tables := [],
              hasListParagraphStyle := d.hasListParagraphStyle }
      ∧ ∀ body ∈ discoveredPlaceholders d, body ≠ [] ∧ (∀ c ∈ body, c ≠ '}')
          ∧ ('{' :: '{' :: (body ++ '}' :: '}' :: [])) <:+: get_document_text d :=
  ⟨rfl, findTokens_sound _⟩

/-- C7: `_get_nested_json_value` agrees exactly with the spec's
description of `resolve`: split the path on `.`, fold over the segments
treating a digit segment as a list index (absent when out of range or
the node is not a list) and any other segment as a mapping lookup
(absent when missing or the node is not a mapping), with absent
short-circuiting; both sides are total functions, so resolution never
raises. -/
theorem get_nested_json_value_spec (data : JVal) (path : Text) :
    get_nested_json_value data path = resolveSpec data path :=
  getNestedAux_eq_foldl (pySplitDot path) data

/-- C9 (amended): in the placeholder pass the literal replacement of a
token in document text is case-*insensitive* (the pass invokes
`find_and_replace_text` with `case_sensitive=False`, under which
lower-casing the search string does not change the result), and
auto-categorization is case-insensitive on the token body, but the
alias-table lookup is an exact — hence case-sensitive — dict lookup:
it succeeds exactly for the keys literally present. -/
theorem placeholder_case_spec :
    (∀ (d : Doc) (s r : Text),
        find_and_replace_text d (s.map pyLower) r true false
          = find_and_replace_text d s r true false)
      ∧ (∀ k : Text, categorize_placeholder k = categorize_placeholder (k.map pyLower))
      ∧ (∀ (m : List (Text × Text)) (k : Text),
          (lookupAssoc m k).isSome = true ↔ k ∈ m.map Prod.fst) :=
  ⟨fun d s r => fart_pyLower_lower d s r,
    fun k => categorize_placeholder_lower k,
    fun m k => lookupAssoc_isSome_iff m k⟩

/-- C1 counterexample: a document whose flattened text contains exactly
one occurrence of the search string, yet the non-formatting-preserving
path of `find_and_replace_text` returns 0 (replacing a string by itself
leaves the text unchanged, and the simple path only counts when the
text changed). -/
theorem self_replacement_zero_count :
    pyCount (strT "a") (docFullText dC1) = 1
      ∧ find_and_replace_text dC1 (strT "a") (strT "a") false true = some (dC1, 0) := by
  constructor
  · simp [pyCount, pyCountAux, docFullText, dC1, visitedParas, tableParas, joinNL,
      paraOf, Para.text, matchAt, strT]
  · simp [find_and_replace_text, dC1, processList, replace_text_in_paragraph, strT,
      paraOf, Para.text, pyContains, pyReplace, replaceAllBy, findMatchesAux, matchAt]

/-- C6 counterexample: a token occurring only inside a table cell is not
discovered at all (the scan reads only top-level paragraphs), and a
token body occurring twice in the top-level text is reported twice (no
de-duplication, so it is resolved once per occurrence, not once). -/
theorem tokens_tables_duplicates :
    discoveredPlaceholders dC6c = []
      ∧ pyContains (strT "{{x}}") (docFullText dC6c) = true
      ∧ discoveredPlaceholders dC6c2 = [strT "a", strT "a"] := by
  refine ⟨?_, by decide, ?_⟩
  · simp [discoveredPlaceholders, findTokens, get_document_text, dC6c, joinNL,
      paraOf, Para.text, strT]
  · simp [discoveredPlaceholders, findTokens, get_document_text, dC6c2, joinNL,
      paraOf, Para.text, strT]

/-- C3: an empty search string does *not* leave the document unchanged
with zero replacements.  On the paragraph "ab": with
`preserve_formatting=True` the empty pattern matches at every offset and
the splice reads `char_to_run_map[len(text)]`, raising `IndexError`
(modelled `none`), which escapes as `EditOperationError`; with
`preserve_formatting=False` the call returns `len(text)+1 = 3` and
rewrites the text to "XaXbX". -/
theorem empty_search_behavior :
    find_and_replace_text dC3 [] (strT "X") true true = none
      ∧ (find_and_replace_text dC3 [] (strT "X") false true).map
          (fun r => (docFullText r.1, r.2)) = some (strT "XaXbX", 3) := by
  constructor
  · simp [find_and_replace_text, dC3, processList, replace_text_in_paragraph,
      replace_with_formatting_preservation, findMatches, findMatchesAux, matchAt,
      buildCharMap, processMatches, spliceOne, strT, paraOf, Para.text,
      pyContains, List.nil_infix]
  · simp [find_and_replace_text, dC3, processList, replace_text_in_paragraph, strT,
      paraOf, Para.text, pyContains, List.nil_infix, pyReplace, replaceAllBy,
      insertEverywhere, findMatchesAux, matchAt, pyCount, pyCountAux, docFullText,
      visitedParas, tableParas, joinNL]

/-- C10: the case-insensitive simple path hands the replacement string
unescaped to `re.sub` as a substitution template, so the replacement
`"xz\g<0>zy"` inserts the *matched text* for `\g<0>` (replacing "ab" in
"AB" yields "xzABzy"), while the case-sensitive simple path and the
formatting-preserving path insert the very same replacement string
literally. -/
theorem resub_template_confirmation :
    (replace_text_in_paragraph (paraOf "AB") (strT "ab") (strT "xz\\g<0>zy") false false).map
        (fun r => (r.1.text, r.2)) = some (strT "xzABzy", 1)
      ∧ (replace_text_in_paragraph (paraOf "ab") (strT "ab") (strT "xz\\g<0>zy") false true).map
          (fun r => (r.1.text, r.2)) = some (strT "xz\\g<0>zy", 1)
      ∧ (replace_text_in_paragraph (paraOf "AB") (strT "ab") (strT "xz\\g<0>zy") true false).map
          (fun r => (r.1.text, r.2)) = some (strT "xz\\g<0>zy", 1) := by
  refine ⟨?_, ?_, ?_⟩
  · simp +decide [replace_text_in_paragraph, paraOf, Para.text, strT, pyContains,
      pyLower, reSub, reSubAux, reSubEmpty, expandTemplate, matchAt, findMatches,
      findMatchesAux, isOctalDigit, octVal]
  · simp [replace_text_in_paragraph, paraOf, Para.text, strT, pyContains, pyReplace,
      replaceAllBy, findMatchesAux, matchAt, pyCount, pyCountAux]
  · simp +decide [replace_text_in_paragraph, paraOf, Para.text, strT, pyContains,
      pyLower, replace_with_formatting_preservation, findMatches, findMatchesAux,
      matchAt, caseFold, buildCharMap, processMatches, spliceOne,
      rebuild_paragraph_with_formatting, rebuildAux, apply_run_formatting, defaultFmt]

/-- C8 counterexample: with an empty search string the
formatting-preserving path fails on any nonempty paragraph, and one such
failing paragraph makes the whole two-paragraph document pass return the
error — the second paragraph is not processed independently. -/
theorem abort_counterexample :
    replace_text_in_paragraph (paraOf "ab") [] (strT "X") true true = none
      ∧ find_and_replace_text dC8 [] (strT "X") true true = none := by
  constructor
  · simp [replace_text_in_paragraph, replace_with_formatting_preservation,
      findMatches, findMatchesAux, matchAt, buildCharMap, processMatches, spliceOne,
      strT, paraOf, Para.text, pyContains, List.nil_infix]
  · simp [find_and_replace_text, dC8, processList, replace_text_in_paragraph,
      replace_with_formatting_preservation, findMatches, findMatchesAux, matchAt,
      buildCharMap, processMatches, spliceOne, strT, paraOf, Para.text,
      pyContains, List.nil_infix]

/-- C2 counterexample: the match's first (and only) character carries an
explicit font size of 0; after replacement and rebuild the replacement
characters carry *no* font size at all (`_apply_run_formatting` guards
font size by truthiness, so the falsy 0 is dropped) — they do not carry
exactly the formatting of the match's first character. -/
theorem rwfp_falsy_formatting_dropped :
    replace_with_formatting_preservation pC2c (strT "x") (strT "yz") true
        = some (mkPara [⟨strT "yz", defaultFmt⟩], 1)
      ∧ zeroSizeFmt.font_size = some 0 ∧ defaultFmt.font_size = none := by
  refine ⟨?_, by decide, by decide⟩
  simp +decide [replace_with_formatting_preservation, pC2c, mkPara, strT, zeroSizeFmt,
    defaultFmt, findMatches, findMatchesAux, matchAt, caseFold, buildCharMap,
    processMatches, spliceOne, rebuild_paragraph_with_formatting, rebuildAux,
    apply_run_formatting]

/-- C4 counterexample: a match spanning two differently formatted runs:
replacing "ab" with itself merges the two runs into one carrying the
first character's formatting, so the per-character formatting sequence
changes (the second character loses its bold). -/
theorem rtip_self_changes_runs :
    replace_text_in_paragraph pC4c (strT "ab") (strT "ab") true true
        = some (mkPara [⟨strT "ab", defaultFmt⟩], 1)
      ∧ (buildCharMap (mkPara [⟨strT "ab", defaultFmt⟩]).runs).map Prod.snd
          ≠ (buildCharMap pC4c.runs).map Prod.snd := by
  refine ⟨?_, by decide⟩
  simp +decide [replace_text_in_paragraph, replace_with_formatting_preservation,
    pC4c, mkPara, strT, boldFmt, defaultFmt, paraOf, Para.text, pyContains,
    findMatches, findMatchesAux, matchAt, caseFold, buildCharMap, processMatches,
    spliceOne, rebuild_paragraph_with_formatting, rebuildAux, apply_run_formatting]

/-- C5 counterexample: a document containing the token once and three
items: the call returns 1 — the number of token occurrences replaced in
the containing paragraph — not `len(items) = 3`. -/
theorem bullet_count_not_items_length :
    (replace_with_bullet_points dC5c (strT "{{h}}") [strT "A", strT "B", strT "C"] true).map
        (fun r => r.2) = some 1
      ∧ [strT "A", strT "B", strT "C"].length = 3 := by
  refine ⟨?_, by decide⟩
  simp +decide [replace_with_bullet_points, bulletLoop, dC5c, strT, paraOf, Para.text,
    pyContains, find_template_bullet_formatting, findTemplateAux, pyStrip,
    templatePhrase, pyLower, replace_with_formatting_preservation, findMatches,
    findMatchesAux, matchAt, caseFold, buildCharMap, processMatches, spliceOne,
    rebuild_paragraph_with_formatting, rebuildAux, apply_run_formatting, defaultFmt]

/-- C9 counterexample: the literal replacement of the all-lowercase
token text also rewrites the all-uppercase occurrence (it is
case-insensitive, count 2 over the two casings), and an alias-table
lookup misses a key differing only in case (it is case-sensitive). -/
theorem placeholder_case_counterexample :
    (find_and_replace_text dC9 (strT "{{name}}") (strT "X") true false).map
        (fun r => ((visitedParas r.1).map Para.text, r.2))
      = some ([strT "X", strT "X"], 2)
      ∧ lookupAssoc [(strT "tok", strT "p")] (strT "TOK") = none := by
  refine ⟨?_, by decide⟩
  simp +decide [find_and_replace_text, dC9, processList, replace_text_in_paragraph,
    replace_with_formatting_preservation, strT, paraOf, Para.text, pyContains,
    pyLower, findMatches, findMatchesAux, matchAt, caseFold, buildCharMap,
    processMatches, spliceOne, rebuild_paragraph_with_formatting, rebuildAux,
    apply_run_formatting, defaultFmt, visitedParas, tableParas]

/-- C1 witness: the amended count property at a concrete document with
three occurrences of "ab" across a top-level paragraph and a table
cell. -/
theorem fart_count_spec_witness :
    (strT "ab" ≠ [] ∧ '\n' ∉ strT "ab")
      ∧ ((∃ d1, find_and_replace_text dC1w (strT "ab") (strT "X") true true
              = some (d1, pyCount (strT "ab") (docFullText dC1w))
            ∧ docFullText d1 = replaceAllBy id (strT "ab") (strT "X") (docFullText dC1w))
        ∧ (strT "X" ≠ strT "ab" →
            ∃ d2, find_and_replace_text dC1w (strT "ab") (strT "X") false true
                = some (d2, pyCount (strT "ab") (docFullText dC1w))
              ∧ docFullText d2 = replaceAllBy id (strT "ab") (strT "X") (docFullText dC1w))
        ∧ (strT "X" = strT "ab" →
            find_and_replace_text dC1w (strT "ab") (strT "X") false true = some (dC1w, 0))) :=
  ⟨⟨by decide, by decide⟩,
    find_and_replace_text_count_spec dC1w (strT "ab") (strT "X") (by decide) (by decide)⟩

/-- C2 witness: the amended formatting property at the spec's example
paragraph "a BOLD b" with a bold middle run, replacing "BOLD" by
"STRONG" case-sensitively. -/
theorem rwfp_formatting_spec_witness :
    (strT "BOLD" ≠ []
        ∧ findMatchesAux (caseFold true) (strT "BOLD")
            ((buildCharMap pC2w.runs).map Prod.fst) 0 ≠ [])
      ∧ (replace_with_formatting_preservation pC2w (strT "BOLD") (strT "STRONG") true
            = some (rebuild_paragraph_with_formatting pC2w
                  (replaceMapBy (caseFold true) (strT "BOLD") (strT "STRONG")
                    (buildCharMap pC2w.runs)),
                (findMatchesAux (caseFold true) (strT "BOLD")
                  ((buildCharMap pC2w.runs).map Prod.fst) 0).length)
          ∧ buildCharMap (rebuild_paragraph_with_formatting pC2w
                (replaceMapBy (caseFold true) (strT "BOLD") (strT "STRONG")
                  (buildCharMap pC2w.runs))).runs
              = (replaceMapBy (caseFold true) (strT "BOLD") (strT "STRONG")
                  (buildCharMap pC2w.runs)).map
                  (fun cf => (cf.1, apply_run_formatting cf.2 defaultFmt))
          ∧ (rebuild_paragraph_with_formatting pC2w
                (replaceMapBy (caseFold true) (strT "BOLD") (strT "STRONG")
                  (buildCharMap pC2w.runs))).text
              = (replaceMapBy (caseFold true) (strT "BOLD") (strT "STRONG")
                  (buildCharMap pC2w.runs)).map Prod.fst) :=
  ⟨⟨by decide, by
      simp [findMatchesAux, matchAt, caseFold, buildCharMap, pC2w, mkPara, strT,
        boldFmt, defaultFmt]⟩,
    rwfp_formatting_spec pC2w (strT "BOLD") (strT "STRONG") true (by decide) (by
      simp [findMatchesAux, matchAt, caseFold, buildCharMap, pC2w, mkPara, strT,
        boldFmt, defaultFmt])⟩

/-- C4 witness: the no-op property at a paragraph in coalesced normal
form with normalized formatting, replacing the bold word "two" with
itself. -/
theorem rtip_self_preserving_witness :
    (strT "two" ≠ [] ∧ minimalRuns pC4w.runs = true
        ∧ (∀ rn ∈ pC4w.runs, Fmt.normal rn.fmt)
        ∧ matchesUniform (strT "two") (buildCharMap pC4w.runs) = true)
      ∧ replace_text_in_paragraph pC4w (strT "two") (strT "two") true true
          = some (pC4w, (findMatchesAux id (strT "two") pC4w.text 0).length) :=
  ⟨⟨by decide, by decide,
    (by
      intro rn hrn
      simp [pC4w, mkPara] at hrn
      rcases hrn with rfl | rfl <;> rfl),
    (by
      simp +decide [matchesUniform, matchAt, buildCharMap, pC4w, mkPara, strT,
        boldFmt, defaultFmt])⟩,
    rtip_self_preserving pC4w (strT "two") (by decide) (by decide) (by
      intro rn hrn
      simp [pC4w, mkPara] at hrn
      rcases hrn with rfl | rfl <;> rfl) (by
      simp +decide [matchesUniform, matchAt, buildCharMap, pC4w, mkPara, strT,
        boldFmt, defaultFmt])⟩

/-- C5 witness: the amended bullet-expansion property at a two-paragraph
document whose second paragraph contains the token, with two items. -/
theorem replace_with_bullet_points_spec_witness :
    (dC5w.paragraphs = [paraOf "head"] ++ paraOf "see {{hl}}" :: []
        ∧ (∀ q ∈ [paraOf "head"], pyContains (strT "{{hl}}") q.text = false)
        ∧ pyContains (strT "{{hl}}") (paraOf "see {{hl}}").text = true
        ∧ replace_with_formatting_preservation (paraOf "see {{hl}}") (strT "{{hl}}")
            ('•' :: ' ' :: [strT "A", strT "B"].headD []) false
            = some (mkPara [⟨strT "see • A", defaultFmt⟩], 1)
        ∧ 0 < 1 ∧ [strT "A", strT "B"] ≠ [])
      ∧ (replace_with_bullet_points dC5w (strT "{{hl}}") [strT "A", strT "B"] true
            = some ({ dC5w with paragraphs := ([paraOf "head"]
                  ++ apply_bullet_formatting dC5w.hasListParagraphStyle
                      (mkPara [⟨strT "see • A", defaultFmt⟩])
                  :: (([strT "A", strT "B"].drop 1).map
                        (newBulletPara dC5w.hasListParagraphStyle
                          (find_template_bullet_formatting dC5w)) ++ [])) },
                1)
          ∧ (([strT "A", strT "B"].drop 1).map
                (newBulletPara dC5w.hasListParagraphStyle
                  (find_template_bullet_formatting dC5w))).map Para.text
              = ([strT "A", strT "B"].drop 1).map (fun it => '•' :: ' ' :: it)
          ∧ ∀ q ∈ ([strT "A", strT "B"].drop 1).map
                (newBulletPara dC5w.hasListParagraphStyle
                  (find_template_bullet_formatting dC5w)),
              q.leftIndent = some 457200 ∧ q.firstLineIndent = some (-228600)
                ∧ q.spaceAfter = some 38100 ∧ q.lineSpacing = some 115) :=
  ⟨⟨rfl, by decide, by decide, by
      simp +decide [replace_with_formatting_preservation, paraOf, mkPara, strT,
        defaultFmt, findMatches, findMatchesAux, matchAt, caseFold, pyLower,
        buildCharMap, processMatches, spliceOne, rebuild_paragraph_with_formatting,
        rebuildAux, apply_run_formatting],
      by decide, by decide⟩,
    replace_with_bullet_points_spec dC5w (strT "{{hl}}") [strT "A", strT "B"] true
      [paraOf "head"] [] (paraOf "see {{hl}}") (mkPara [⟨strT "see • A", defaultFmt⟩]) 1
      rfl (by decide) (by decide)
      (by
        simp +decide [replace_with_formatting_preservation, paraOf, mkPara, strT,
          defaultFmt, findMatches, findMatchesAux, matchAt, caseFold, pyLower,
          buildCharMap, processMatches, spliceOne, rebuild_paragraph_with_formatting,
          rebuildAux, apply_run_formatting])
      (by decide) (by decide)⟩
